import Mathlib

/-!
Verification development for the `angular-locker` storage engine
(`src/angular-locker.js`): a namespaced, optionally-encrypted key-value
storage facade over two browser storage backends, with change events and
a scope-binding layer.

The JavaScript source is shallowly embedded: JS strings are lists of
characters (`JStr`), JS values are the inductive `JSVal` (the function
case is outside the modelled value domain; no claim passes a function
argument), the two storage backends, the event log, the crypto-key slots
and the scopes live in an explicit `World` record, and every method of
the `Locker` class becomes a Lean function threading the receiver and
the world.  Exceptions become an `Except` result paired with the state
at the point of the throw (JS exceptions do not roll back mutations).
-/

/-- JS strings are modelled as lists of characters. -/
abbrev JStr := List Char

/-- The modelled domain of JS values: `undefined`, `null`, `NaN`,
booleans, (integer) numbers, strings, arrays and plain objects.
JS numbers are floats; the model restricts them to integers, which is
what every claim exercises.  Functions are outside the domain. -/
inductive JSVal where
  | undef : JSVal
  | null : JSVal
  | nan : JSVal
  | bool (b : Bool) : JSVal
  | num (n : Int) : JSVal
  | str (s : JStr) : JSVal
  | arr (elems : List JSVal) : JSVal
  | obj (fields : List (JStr × JSVal)) : JSVal
deriving Repr

/-- Models `angular.isObject`: `v !== null && typeof v === 'object'`
(arrays are objects). -/
def jsIsObject : JSVal → Bool
  | .arr _ => true
  | .obj _ => true
  | _ => false

/-- Models `angular.isArray`. -/
def jsIsArray : JSVal → Bool
  | .arr _ => true
  | _ => false

/-- Models `angular.isDefined`. -/
def jsIsDefined : JSVal → Bool
  | .undef => false
  | _ => true

/-- Models `angular.isUndefined`. -/
def jsIsUndefined : JSVal → Bool
  | .undef => true
  | _ => false

/-- Models `angular.isString`. -/
def jsIsString : JSVal → Bool
  | .str _ => true
  | _ => false

/-- Models JS truthiness: `undefined`, `null`, `NaN`, `false`, `0` and
the empty string are falsy, everything else (including every object and
array) is truthy. -/
def jsTruthy : JSVal → Bool
  | .undef => false
  | .null => false
  | .nan => false
  | .bool b => b
  | .num n => n != 0
  | .str s => !s.isEmpty
  | .arr _ => true
  | .obj _ => true

/-- Little-endian decimal digit values of a natural number, with fuel
(kernel-reducible, unlike `Nat.digits`). -/
def natDigitsRev : Nat → Nat → List Nat
  | 0, _ => []
  | _ + 1, 0 => []
  | f + 1, n => n % 10 :: natDigitsRev f (n / 10)

/-- Decimal rendering of a natural number. -/
def printNat (n : Nat) : JStr :=
  if n = 0 then ['0'] else ((natDigitsRev n n).reverse).map Nat.digitChar

/-- Decimal rendering of an integer, as JS renders integral numbers. -/
def printInt (n : Int) : JStr :=
  if n < 0 then '-' :: printNat n.natAbs else printNat n.natAbs

mutual
/-- Models JS string coercion (`String(v)` / `'' + v`) on the modelled
domain. -/
def jsToStr : JSVal → JStr
  | .undef => ('u' :: ('n' :: ('d' :: ('e' :: ('f' :: ('i' :: ('n' :: ('e' :: ('d' :: [])))))))))
  | .null => ('n' :: ('u' :: ('l' :: ('l' :: []))))
  | .nan => ('N' :: ('a' :: ('N' :: [])))
  | .bool b => if b then ('t' :: ('r' :: ('u' :: ('e' :: [])))) else ('f' :: ('a' :: ('l' :: ('s' :: ('e' :: [])))))
  | .num n => printInt n
  | .str s => s
  | .arr xs => jsToStrElems xs
  | .obj _ => ('[' :: ('o' :: ('b' :: ('j' :: ('e' :: ('c' :: ('t' :: (' ' :: ('O' :: ('b' :: ('j' :: ('e' :: ('c' :: ('t' :: (']' :: [])))))))))))))))

/-- Array-to-string coercion: elements joined by commas, with `null`
and `undefined` elements rendered empty (JS `Array.prototype.join`). -/
def jsToStrElems : List JSVal → JStr
  | [] => []
  | x :: rest =>
    jsToStrElem x ++ (match rest with | [] => [] | _ :: _ => ',' :: jsToStrElems rest)

/-- One element of an array coercion: `null` and `undefined` render
empty, every other value by the string coercion. -/
def jsToStrElem : JSVal → JStr
  | .undef => []
  | .null => []
  | .nan => ('N' :: ('a' :: ('N' :: [])))
  | .bool b => if b then ('t' :: ('r' :: ('u' :: ('e' :: [])))) else ('f' :: ('a' :: ('l' :: ('s' :: ('e' :: [])))))
  | .num n => printInt n
  | .str s => s
  | .arr xs => jsToStrElems xs
  | .obj _ => ('[' :: ('o' :: ('b' :: ('j' :: ('e' :: ('c' :: ('t' :: (' ' :: ('O' :: ('b' :: ('j' :: ('e' :: ('c' :: ('t' :: (']' :: [])))))))))))))))
end

/-- First-match lookup in an association list with `JStr` keys, as JS
property access on a plain object. -/
def jsLookup {β : Type} (k : JStr) : List (JStr × β) → Option β
  | [] => none
  | (k', v) :: rest => if k' = k then some v else jsLookup k rest

/-- JS object property assignment: overwrite in place when the key is
present, otherwise append (insertion order preserved). -/
def jsInsert {β : Type} (k : JStr) (v : β) : List (JStr × β) → List (JStr × β)
  | [] => [(k, v)]
  | (k', v') :: rest =>
    if k' = k then (k', v) :: rest else (k', v') :: jsInsert k v rest

mutual
/-- Models `angular.equals`: deep structural equality; two `NaN`s are
equal; objects are compared key-wise in both directions (order
insensitive); values of different types are unequal. -/
def jsEquals : JSVal → JSVal → Bool
  | .undef, .undef => true
  | .null, .null => true
  | .nan, .nan => true
  | .bool a, .bool b => a == b
  | .num a, .num b => a == b
  | .str a, .str b => a == b
  | .arr xs, .arr ys => jsEqualsElems xs ys
  | .obj f1, .obj f2 => jsEqualsFields f1 f2 && jsEqualsExtra f2 f1
  | _, _ => false

/-- Pointwise array comparison (length mismatch is unequal). -/
def jsEqualsElems : List JSVal → List JSVal → Bool
  | [], [] => true
  | x :: xs, y :: ys => jsEquals x y && jsEqualsElems xs ys
  | _, _ => false

/-- Every field of the first object must equal the corresponding field
of the second (a missing field reads as `undefined`, equal only to an
`undefined` field value). -/
def jsEqualsFields : List (JStr × JSVal) → List (JStr × JSVal) → Bool
  | [], _ => true
  | (k, v) :: rest, f2 =>
    (match jsLookup k f2 with
     | some w => jsEquals v w
     | none => match v with | .undef => true | _ => false)
      && jsEqualsFields rest f2

/-- The second object may not have extra defined fields missing from
the first. -/
def jsEqualsExtra : List (JStr × JSVal) → List (JStr × JSVal) → Bool
  | [], _ => true
  | (k, v) :: rest, f1 =>
    ((jsLookup k f1).isSome || jsIsUndefined v) && jsEqualsExtra rest f1
end

/-- Models `_value` from the source: `isFunction(value) ? value(param)
: value`.  Functions are outside the modelled value domain, so this is
the identity; no claim passes a function argument. -/
def jsValueOf (v : JSVal) (_param : Option JSVal) : JSVal := v

/-- Whitespace class of the JS regex `\s` (the ASCII part plus the
common Unicode space characters). -/
def jsIsSpace (c : Char) : Bool :=
  c = ' ' || c = '\t' || c = '\n' || c = '\r' ||
  c = (Char.ofNat 11) || c = (Char.ofNat 12) || c = (Char.ofNat 0xa0) ||
  c = (Char.ofNat 0x2028) || c = (Char.ofNat 0x2029) || c = (Char.ofNat 0xfeff)

/-- Models `key.replace(/\s/gm, '')`: remove every whitespace character. -/
def stripSpaces (s : JStr) : JStr := s.filter (fun c => !jsIsSpace c)

/-- Models `Array.prototype.join(sep)` over already-string elements. -/
def joinSep (sep : JStr) : List JStr → JStr
  | [] => []
  | [x] => x
  | x :: rest => x ++ sep ++ joinSep sep rest

/-- Prefix test over character lists (Boolean). -/
def startsWith : JStr → JStr → Bool
  | [], _ => true
  | a :: as, s =>
    match s with
    | [] => false
    | b :: bs => a = b && startsWith as bs

/-- Fuelled worker for `jsSplit`, for a nonempty separator (fuel bounds
the input length). -/
def splitFuel : Nat → JStr → JStr → List JStr
  | 0, _, s => [s]
  | f + 1, sep, s =>
    if startsWith sep s then
      [] :: splitFuel f sep (s.drop sep.length)
    else
      match s with
      | [] => [[]]
      | d :: rest =>
        match splitFuel f sep rest with
        | [] => [[d]]
        | t :: ts => (d :: t) :: ts

/-- Models `String.prototype.split(sep)` for a string separator: an
empty separator splits into single characters, otherwise the string is
cut at each occurrence of the separator. -/
def jsSplit (sep s : JStr) : List JStr :=
  if sep = [] then s.map (fun c => [c]) else splitFuel (s.length + 1) sep s

/-! ### JSON codec

Models `angular.toJson` / `angular.fromJson`, i.e. `JSON.stringify` and
`JSON.parse` restricted to the modelled value domain: numbers are
integers (the parser rejects fractions and exponents it cannot
represent, where real `JSON.parse` would produce a float), and the
printer emits the standard escapes (`\"`, `\\`, `\b`, `\t`, `\n`,
`\f`, `\r`, `\u00XX` for other control characters). -/

/-- Decode one hexadecimal digit character. -/
def parseHex (c : Char) : Option Nat :=
  if '0' ≤ c ∧ c ≤ '9' then some (c.toNat - 48)
  else if 'a' ≤ c ∧ c ≤ 'f' then some (c.toNat - 87)
  else if 'A' ≤ c ∧ c ≤ 'F' then some (c.toNat - 55)
  else none

/-- JSON escape of one character, as `JSON.stringify` emits it. -/
def escapeChar (c : Char) : JStr :=
  if c = '"' then ('\\' :: ('"' :: []))
  else if c = '\\' then ('\\' :: ('\\' :: []))
  else if c = Char.ofNat 8 then ('\\' :: ('b' :: []))
  else if c = '\t' then ('\\' :: ('t' :: []))
  else if c = '\n' then ('\\' :: ('n' :: []))
  else if c = Char.ofNat 12 then ('\\' :: ('f' :: []))
  else if c = '\r' then ('\\' :: ('r' :: []))
  else if c.toNat < 32 then
    ('\\' :: ('u' :: ('0' :: ('0' :: (Nat.digitChar (c.toNat / 16) :: (Nat.digitChar (c.toNat % 16) :: []))))))
  else [c]

/-- JSON escape of a string body. -/
def escapeStr : JStr → JStr
  | [] => []
  | c :: rest => escapeChar c ++ escapeStr rest

/-- JSON rendering of a string, quotes included. -/
def printJStr (s : JStr) : JStr := '"' :: (escapeStr s ++ ('"' :: []))

mutual
/-- `JSON.stringify` body on the modelled domain, total: an `undefined`
reached as an array element renders `null` (its only reachable
position; `printVal` handles the top level and object fields drop it
before recursing). -/
def printValT : JSVal → JStr
  | .undef => ('n' :: ('u' :: ('l' :: ('l' :: []))))
  | .null => ('n' :: ('u' :: ('l' :: ('l' :: []))))
  | .nan => ('n' :: ('u' :: ('l' :: ('l' :: []))))
  | .bool b =>
    if b then ('t' :: ('r' :: ('u' :: ('e' :: []))))
    else ('f' :: ('a' :: ('l' :: ('s' :: ('e' :: [])))))
  | .num n => printInt n
  | .str s => printJStr s
  | .arr xs => '[' :: (printElemsT xs ++ (']' :: []))
  | .obj fs => '{' :: (printFieldsT fs ++ ('}' :: []))

/-- Array body: elements joined by commas (an `undefined` element
renders `null` via `printValT`). -/
def printElemsT : List JSVal → JStr
  | [] => []
  | [x] => printValT x
  | x :: rest => printValT x ++ (',' :: printElemsT rest)

/-- Object body: fields joined by commas; a field whose value is
`undefined` is dropped. -/
def printFieldsT : List (JStr × JSVal) → JStr
  | [] => []
  | (k, v) :: rest =>
    if jsIsUndefined v then printFieldsT rest
    else printJStr k ++ (':' :: printValT v) ++ printFieldsTailT rest

/-- Object body continuation: like `printFieldsT` but each kept field
is preceded by its separating comma. -/
def printFieldsTailT : List (JStr × JSVal) → JStr
  | [] => []
  | (k, v) :: rest =>
    if jsIsUndefined v then printFieldsTailT rest
    else (',' :: (printJStr k ++ (':' :: printValT v))) ++ printFieldsTailT rest
end

/-- `JSON.stringify` on the modelled domain; `none` models the
`undefined` result for an `undefined` input. -/
def printVal : JSVal → Option JStr
  | .undef => none
  | v => some (printValT v)

/-- JSON whitespace. -/
def jsonWs (c : Char) : Bool := c = ' ' || c = '\t' || c = '\n' || c = '\r'

/-- Skip leading JSON whitespace. -/
def skipWs : JStr → JStr
  | [] => []
  | c :: rest => if jsonWs c then skipWs rest else c :: rest

/-- Decode one short escape character. -/
def escDecode (c : Char) : Option Char :=
  if c = '"' then some '"'
  else if c = '\\' then some '\\'
  else if c = '/' then some '/'
  else if c = 'b' then some (Char.ofNat 8)
  else if c = 'f' then some (Char.ofNat 12)
  else if c = 'n' then some '\n'
  else if c = 'r' then some '\r'
  else if c = 't' then some '\t'
  else none

/-- Combine four hexadecimal digit characters into a code point. -/
def hex4 (h1 h2 h3 h4 : Char) : Option Nat :=
  match parseHex h1, parseHex h2, parseHex h3, parseHex h4 with
  | some a, some b, some c, some d => some (((a * 16 + b) * 16 + c) * 16 + d)
  | _, _, _, _ => none

/-- Parse a JSON string body after the opening quote, returning the
decoded string and the input after the closing quote. -/
def parseJStrAux : JStr → Option (JStr × JStr)
  | [] => none
  | c :: rest =>
    if c = '"' then some ([], rest)
    else if c = '\\' then
      match rest with
      | [] => none
      | e :: rest2 =>
        if e = 'u' then
          match rest2 with
          | h1 :: (h2 :: (h3 :: (h4 :: rest3))) =>
            match hex4 h1 h2 h3 h4 with
            | some code =>
              (parseJStrAux rest3).map (fun p => (Char.ofNat code :: p.1, p.2))
            | none => none
          | _ => none
        else
          match escDecode e with
          | some dc => (parseJStrAux rest2).map (fun p => (dc :: p.1, p.2))
          | none => none
    else (parseJStrAux rest).map (fun p => (c :: p.1, p.2))

/-- Consume leading decimal digits, most significant first. -/
def parseDigits (acc : Nat) : JStr → Nat × JStr
  | [] => (acc, [])
  | c :: rest =>
    if c.isDigit then parseDigits (acc * 10 + (c.toNat - 48)) rest
    else (acc, c :: rest)

/-- After the digits of a number, a fraction or exponent is rejected
(the model has no floats); otherwise package the value. -/
def finishNum (val : Int) (rest : JStr) : Option (JSVal × JStr) :=
  match rest with
  | r :: _ =>
    if r = '.' ∨ r = 'e' ∨ r = 'E' then none else some (.num val, rest)
  | [] => some (.num val, rest)

/-- Parse an integral JSON number; a fraction or exponent is rejected
(the model has no floats). -/
def parseNum (s : JStr) : Option (JSVal × JStr) :=
  match s with
  | [] => none
  | c :: s' =>
    if c = '-' then
      match s' with
      | [] => none
      | d :: _ =>
        if d.isDigit then
          let p := parseDigits 0 s'
          finishNum (-(p.1 : Int)) p.2
        else none
    else if c.isDigit then
      let p := parseDigits 0 (c :: s')
      finishNum (p.1 : Int) p.2
    else none

/-- Match a literal tail. -/
def expectLit (lit s : JStr) : Option JStr :=
  if startsWith lit s then some (s.drop lit.length) else none

mutual
/-- Recursive-descent JSON value parser; the fuel only bounds nesting
and list length and is decremented on every recursive call. -/
def parseVal : Nat → JStr → Option (JSVal × JStr)
  | 0, _ => none
  | f + 1, s =>
    match skipWs s with
    | [] => none
    | c :: rest =>
      if c = '"' then (parseJStrAux rest).map (fun p => (.str p.1, p.2))
      else if c = '[' then
        match skipWs rest with
        | [] => (parseElems f []).map (fun p => (.arr p.1, p.2))
        | c2 :: r2 =>
          if c2 = ']' then some (.arr [], r2)
          else (parseElems f (c2 :: r2)).map (fun p => (.arr p.1, p.2))
      else if c = '{' then
        match skipWs rest with
        | [] => (parseFields f []).map (fun p => (.obj p.1, p.2))
        | c2 :: r2 =>
          if c2 = '}' then some (.obj [], r2)
          else (parseFields f (c2 :: r2)).map (fun p => (.obj p.1, p.2))
      else if c = 't' then
        (expectLit ('r' :: ('u' :: ('e' :: []))) rest).map (fun r => (.bool true, r))
      else if c = 'f' then
        (expectLit ('a' :: ('l' :: ('s' :: ('e' :: [])))) rest).map (fun r => (.bool false, r))
      else if c = 'n' then
        (expectLit ('u' :: ('l' :: ('l' :: []))) rest).map (fun r => (.null, r))
      else parseNum (c :: rest)

/-- Parse one or more comma-separated array elements up to the closing
bracket. -/
def parseElems : Nat → JStr → Option (List JSVal × JStr)
  | 0, _ => none
  | f + 1, s =>
    match parseVal f s with
    | none => none
    | some (v, r) =>
      match skipWs r with
      | [] => none
      | c2 :: r2 =>
        if c2 = ',' then (parseElems f r2).map (fun p => (v :: p.1, p.2))
        else if c2 = ']' then some ([v], r2)
        else none

/-- Parse one or more comma-separated object members up to the closing
brace. -/
def parseFields : Nat → JStr → Option (List (JStr × JSVal) × JStr)
  | 0, _ => none
  | f + 1, s =>
    match skipWs s with
    | [] => none
    | c0 :: rest =>
      if c0 = '"' then
        match parseJStrAux rest with
        | none => none
        | some (k, r) =>
          match skipWs r with
          | [] => none
          | c1 :: r2 =>
            if c1 = ':' then
              match parseVal f r2 with
              | none => none
              | some (v, r3) =>
                match skipWs r3 with
                | [] => none
                | c3 :: r4 =>
                  if c3 = ',' then
                    (parseFields f r4).map (fun p => ((k, v) :: p.1, p.2))
                  else if c3 = '}' then some ([(k, v)], r4)
                  else none
            else none
      else none
end

/-- `JSON.parse` on a whole input: the parsed value, provided only
whitespace remains. -/
def jsonParse (s : JStr) : Option JSVal :=
  match parseVal (s.length + 1) s with
  | some (v, r) => if skipWs r = [] then some v else none
  | none => none

/-- Models `_serialize`: `angular.toJson` (`JSON.stringify`), whose
`undefined` result for an `undefined` input is passed through; the
try-catch fallback to the raw value never fires on the modelled tree
domain, which has no circular structures. -/
def _serialize (v : JSVal) : JSVal :=
  match printVal v with
  | none => .undef
  | some s => .str s

/-- Models `_unserialize`: `angular.fromJson` returns non-strings
unchanged and otherwise runs `JSON.parse`; a parse failure throws, is
caught, and the raw input is returned. -/
def _unserialize (v : JSVal) : JSVal :=
  match v with
  | .str s =>
    match jsonParse s with
    | some j => j
    | none => .str s
  | other => other

/-! ### State model

The two backends, the `$rootScope` event log, the crypto-key slots
(heap-allocated `{value: ...}` records) and the scopes form the mutable
world; one `Locker` record holds the per-instance fields of the
`Locker` constructor.  Methods return their result (or the thrown
error) together with the receiver and the world at the point of
return — a thrown JS exception does not roll back earlier mutations. -/

/-- Thrown errors: `_error` wraps a message in
`new Error('[angular-locker] ' + msg)`; `externalError` stands for an
exception raised by an external capability (sjcl). -/
inductive Err where
  | lockerError (msg : JStr)
  | externalError (what : String)
deriving Repr

/-- Models `_error`: throw with the `[angular-locker] ` message. -/
def errOf (msg : JStr) : Err :=
  .lockerError (("[angular-locker] ").data ++ msg)

/-- Message of the `UnsupportedBackend` error. -/
def unsupportedMsg : JStr := ("The browser does not support localStorage").data

/-- Message of the `QuotaExceeded` error. -/
def quotaMsg : JStr := ("The browser storage quota has been exceeded").data

/-- Message of the `WriteFailed(key)` error. -/
def couldNotAddMsg (key : JSVal) : JStr :=
  ("Could not add item with key \"").data ++ jsToStr key ++ ("\"").data

/-- Message of the `DriverNotFound` error. -/
def driverNotFoundMsg (driverArg : JSVal) : JStr :=
  ("The driver \"").data ++ jsToStr driverArg ++ ("\" was not found.").data

/-- Payload of a change event, before `_event` extends it. -/
inductive EvPayload where
  | added (key : JSVal) (value : JSVal)
  | updated (key : JSVal) (oldValue : JSVal) (newValue : JSVal)
  | forgotten (key : JSVal)
deriving Repr

/-- One `$rootScope.$emit` record: the event name and the payload
extended with the instance's derived driver id and namespace. -/
structure Event where
  name : String
  payload : EvPayload
  driver : Option JStr
  ns : JStr
deriving Repr

/-- One storage backend: the stored entries (own enumerable keys, in
insertion order) and a failure mode — when `setFails` is set,
`setItem` throws an error whose `name` is the given string. -/
structure Storage where
  items : List (JStr × JStr)
  setFails : Option String
deriving Repr

/-- Models `Storage.getItem` (`null`, here `none`, when absent). -/
def Storage.getItem (st : Storage) (k : JStr) : Option JStr :=
  jsLookup k st.items

/-- Models `hasOwnProperty` on a backend. -/
def Storage.hasKey (st : Storage) (k : JStr) : Bool :=
  (st.getItem k).isSome

/-- Models `Storage.setItem`: throws the configured error name, or
stores (overwriting in place). -/
def Storage.setItem (st : Storage) (k v : JStr) : Except String Storage :=
  match st.setFails with
  | some ename => .error ename
  | none => .ok { st with items := jsInsert k v st.items }

/-- Models `Storage.removeItem` (absent keys are a no-op). -/
def Storage.removeItem (st : Storage) (k : JStr) : Storage :=
  { st with items := st.items.filter (fun p => !(p.1 == k)) }

/-- Models `Storage.clear`. -/
def Storage.clear (st : Storage) : Storage :=
  { st with items := [] }

/-- The two registered backends. -/
inductive DriverRef where
  | localRef
  | sessionRef
deriving Repr, DecidableEq

/-- One `$watch` subscription of a scope: the watched expression, the
data captured by the registered listener closure, the deep-watch flag,
and whether the subscription is still active (not deregistered). -/
structure WatchSub where
  exp : JStr
  key : JSVal
  encrypted : Bool
  deep : Bool
  active : Bool
deriving Repr

/-- A `$scope`: its `$id`, its properties (read by `$eval` and written
by `$parse(...).assign`), and its subscriptions (a disposer is the
subscription's position in this list). -/
structure Scope where
  sid : Int
  props : List (JStr × JSVal)
  subs : List WatchSub
deriving Repr

/-- The mutable world shared by all instances. -/
structure World where
  localS : Storage
  sessionS : Storage
  events : List Event
  slots : List (Option JStr)
  sjclPresent : Bool
  scopes : List Scope
deriving Repr

/-- The backend a resolved driver reference denotes. -/
def World.getStore (w : World) : DriverRef → Storage
  | .localRef => w.localS
  | .sessionRef => w.sessionS

/-- Write back a backend. -/
def World.setStore (w : World) : DriverRef → Storage → World
  | .localRef, st => { w with localS := st }
  | .sessionRef, st => { w with sessionS := st }

/-- Models `$rootScope.$emit`: prepend to the event log (most recent
first). -/
def World.emit (w : World) (ev : Event) : World :=
  { w with events := ev :: w.events }

/-- Read a crypto-key slot (`this._cryptoKey.value`). -/
def World.slotVal (w : World) (i : Nat) : Option JStr :=
  w.slots.getD i none

/-- Write a crypto-key slot. -/
def World.setSlot (w : World) (i : Nat) (v : Option JStr) : World :=
  { w with slots := w.slots.set i v }

/-- Truthiness of a slot's value (`!!this._cryptoKey.value`). -/
def World.slotTruthy (w : World) (i : Nat) : Bool :=
  match w.slotVal i with
  | some s => !s.isEmpty
  | none => false

/-- Modelled from the spec: the opaque symmetric-encryption capability
(`window.sjcl`, external to this repository).  Deterministic injective
model: the ciphertext records the key's length, the key and the
plaintext. -/
def sjclEncrypt (key plain : JStr) : JStr :=
  '#' :: (printNat key.length ++ ('#' :: (key ++ plain)))

/-- Modelled from the spec: decryption inverts `sjclEncrypt` when the
key matches and throws otherwise (the engine does not catch this). -/
def sjclDecrypt (key cipher : JStr) : Except Err JStr :=
  match cipher with
  | '#' :: rest =>
    match parseDigits 0 rest with
    | (n, '#' :: rest2) =>
      if key.length = n ∧ startsWith key rest2 then .ok (rest2.drop n)
      else .error (.externalError ("sjcl: corrupt or wrong key"))
    | _ => .error (.externalError ("sjcl: corrupt or wrong key"))
  | _ => .error (.externalError ("sjcl: corrupt or wrong key"))

/-- The provider's `defaults` object, read at instance construction. -/
structure Defaults where
  driver : JStr
  ns : JStr
  eventsEnabled : Bool
  separator : JStr
deriving Repr

/-- The shipped defaults: `{driver: 'local', namespace: 'locker',
eventsEnabled: true, separator: '.'}`. -/
def initialDefaults : Defaults :=
  { driver := ("local").data, ns := ("locker").data,
    eventsEnabled := true, separator := ('.' :: []) }

/-- Per-instance state of the `Locker` constructor.  `_cryptoKey` is
the index of this instance's `{value: ...}` slot in `World.slots`;
`_watchers` maps a watcher id to the disposer's (scope index,
subscription index); `_supported` is the lazily cached support probe
result (`none` = not yet probed). -/
structure Locker where
  _driver : DriverRef
  _namespace : JStr
  _eventsEnabled : Bool
  _separator : JStr
  _watchers : List (JStr × (Nat × Nat))
  _cryptoKey : Nat
  _supported : Option Bool
deriving Repr

/-- Models `this._registeredDrivers`. -/
def registeredDrivers : List (JStr × DriverRef) :=
  [(("local").data, .localRef), (("session").data, .sessionRef)]

/-- Models `_keyByVal`: first key whose value equals the argument. -/
def _keyByVal (rs : List (JStr × DriverRef)) (v : DriverRef) : Option JStr :=
  ((rs.filter (fun p => p.2 == v)).head?).map (fun p => p.1)

/-- Models `_resolveDriver`: `hasOwnProperty` check (the argument is
coerced to a property name), then the property read. -/
def _resolveDriver (driverArg : JSVal) : Except Err DriverRef :=
  match jsLookup (jsToStr driverArg) registeredDrivers with
  | some r => .ok r
  | none => .error (errOf (driverNotFoundMsg driverArg))

/-- Models `_deriveDriver`. -/
def _deriveDriver (r : DriverRef) : Option JStr :=
  _keyByVal registeredDrivers r

/-! ### Locker internal methods -/

/-- Models `_checkSupport`: the probe result is cached per instance;
when not yet cached, resolve `driver || 'local'`, try a write+delete of
the throwaway key `'l'`, and cache `true` on success, `false` on any
exception (a resolution failure is also caught).  `none` for
`driverArg` models an absent argument.  The probe never throws. -/
def Locker._checkSupport (lk : Locker) (driverArg : Option JSVal) (w : World) :
    Bool × Locker × World :=
  match lk._supported with
  | some b => (b, lk, w)
  | none =>
    let arg : JSVal :=
      match driverArg with
      | none => .str (("local").data)
      | some d => if jsTruthy d then d else .str (("local").data)
    match _resolveDriver arg with
    | .error _ => (false, { lk with _supported := some false }, w)
    | .ok r =>
      match (w.getStore r).setItem ('l' :: []) ('l' :: []) with
      | .error _ => (false, { lk with _supported := some false }, w)
      | .ok st' =>
        let st2 := st'.removeItem ('l' :: [])
        (true, { lk with _supported := some true }, w.setStore r st2)

/-- Models `_getPrefix` (renamed; the source name ends in a reserved
word): the key is returned bare when the namespace is falsy, else
`namespace + separator + key`; the key is coerced to a string, as every
consumer of the result does. -/
def Locker._getPrefixedKey (lk : Locker) (key : JSVal) : JStr :=
  if lk._namespace = [] then jsToStr key
  else lk._namespace ++ lk._separator ++ jsToStr key

/-- Models `_event`: no-op when events are disabled, else `$emit` the
payload extended with the derived driver id and the namespace. -/
def Locker._event (lk : Locker) (name : String) (payload : EvPayload) (w : World) : World :=
  if !lk._eventsEnabled then w
  else w.emit { name := name, payload := payload,
                driver := _deriveDriver lk._driver, ns := lk._namespace }

/-- Models `_getItem`: check support, read the physical key (`null`
when absent), decrypt when requested and possible, `_unserialize`.
A decryption failure propagates uncaught. -/
def Locker._getItem (lk : Locker) (key : JSVal) (encrypted : JSVal) (w : World) :
    (Except Err JSVal) × Locker × World :=
  match lk._checkSupport none w with
  | (false, lk, w) => (.error (errOf unsupportedMsg), lk, w)
  | (true, lk, w) =>
    let stored := (w.getStore lk._driver).getItem (lk._getPrefixedKey key)
    let finalValue : JSVal := match stored with | some s => .str s | none => .null
    if jsTruthy encrypted && w.sjclPresent && w.slotTruthy lk._cryptoKey
        && jsTruthy finalValue then
      match finalValue with
      | .str s =>
        match sjclDecrypt ((w.slotVal lk._cryptoKey).getD []) s with
        | .ok plain => (.ok (_unserialize (.str plain)), lk, w)
        | .error e => (.error e, lk, w)
      | v => (.ok (_unserialize v), lk, w)
    else (.ok (_unserialize finalValue), lk, w)

/-- Models `_exists`: check support, then `hasOwnProperty` of the
prefixed key (the key first goes through `_value`). -/
def Locker._exists (lk : Locker) (key : JSVal) (w : World) :
    (Except Err Bool) × Locker × World :=
  match lk._checkSupport none w with
  | (false, lk, w) => (.error (errOf unsupportedMsg), lk, w)
  | (true, lk, w) =>
    (.ok ((w.getStore lk._driver).hasKey
      (lk._getPrefixedKey (jsValueOf key none))), lk, w)

/-- Models `_removeItem`: check support, return `false` when the key
does not exist, else remove it, emit `locker.item.forgotten`, return
`true`. -/
def Locker._removeItem (lk : Locker) (key : JSVal) (w : World) :
    (Except Err Bool) × Locker × World :=
  match lk._checkSupport none w with
  | (false, lk, w) => (.error (errOf unsupportedMsg), lk, w)
  | (true, lk, w) =>
    match lk._exists key w with
    | (.error e, lk, w) => (.error e, lk, w)
    | (.ok false, lk, w) => (.ok false, lk, w)
    | (.ok true, lk, w) =>
      let st := (w.getStore lk._driver).removeItem (lk._getPrefixedKey key)
      let w := w.setStore lk._driver st
      let w := lk._event ("locker.item.forgotten") (.forgotten key) w
      (.ok true, lk, w)

/-- The name set classified as a quota error in `_setItem`'s catch. -/
def isQuotaName (ename : String) : Bool :=
  ename == "QUOTA_EXCEEDED_ERR" || ename == "NS_ERROR_DOM_QUOTA_REACHED"
    || ename == "QuotaExceededError"

/-- Models `_setItem`: check support; inside the try block read the old
value with `_getItem(key)` (no decryption), serialize the new value,
encrypt it when requested and possible, write the prefixed key, then
emit `locker.item.updated` when the key exists (checked after the
write) and `angular.equals(oldVal, finalValue)` fails, else
`locker.item.added`.  An exception inside the try block is reclassified
as the quota error or the write-failure error by its name. -/
def Locker._setItem (lk : Locker) (key value encrypted : JSVal) (w : World) :
    (Except Err Unit) × Locker × World :=
  match lk._checkSupport none w with
  | (false, lk, w) => (.error (errOf unsupportedMsg), lk, w)
  | (true, lk, w) =>
    match lk._getItem key .undef w with
    | (.error _, lk, w) => (.error (errOf (couldNotAddMsg key)), lk, w)
    | (.ok oldVal, lk, w) =>
      let serializedValue := _serialize value
      let finalValue :=
        if jsTruthy encrypted && w.sjclPresent && w.slotTruthy lk._cryptoKey
            && jsTruthy serializedValue then
          JSVal.str (sjclEncrypt ((w.slotVal lk._cryptoKey).getD [])
            (jsToStr serializedValue))
        else serializedValue
      match (w.getStore lk._driver).setItem (lk._getPrefixedKey key)
          (jsToStr finalValue) with
      | .error ename =>
        if isQuotaName ename then (.error (errOf quotaMsg), lk, w)
        else (.error (errOf (couldNotAddMsg key)), lk, w)
      | .ok st =>
        let w := w.setStore lk._driver st
        match lk._exists key w with
        | (.error _, lk, w) => (.error (errOf (couldNotAddMsg key)), lk, w)
        | (.ok ex, lk, w) =>
          if ex && !(jsEquals oldVal finalValue) then
            (.ok (), lk,
              lk._event ("locker.item.updated")
                (.updated key oldVal finalValue) w)
          else
            (.ok (), lk,
              lk._event ("locker.item.added") (.added key value) w)

/-! ### Locker public API -/

/-- Batch worker for `put` with an object/array key:
`angular.forEach(key, function (value, key) { this._setItem(key,
value, !!encrypted); }, this)`; an exception in the callback aborts the
iteration and propagates. -/
def Locker.putBatch (lk : Locker) (entries : List (JSVal × JSVal)) (encb : JSVal)
    (w : World) : (Except Err Unit) × Locker × World :=
  match entries with
  | [] => (.ok (), lk, w)
  | (k, v) :: rest =>
    match lk._setItem k v encb w with
    | (.error e, lk, w) => (.error e, lk, w)
    | (.ok _, lk, w) => lk.putBatch rest encb w

/-- Models `put`: a falsy key returns `false` at once; an object or
array key is a batch put over its entries (field name resp. index as
the key); otherwise an omitted (`undefined`) value returns `false`,
and else the value — after `_value` gets the current stored value,
which is read unconditionally — is written via `_setItem`.  The result
`true` models the truthy `this` return. -/
def Locker.put (lk : Locker) (key value encrypted : JSVal) (w : World) :
    (Except Err Bool) × Locker × World :=
  if !(jsTruthy key) then (.ok false, lk, w)
  else
    let key := jsValueOf key none
    match key with
    | .obj fs =>
      match lk.putBatch (fs.map (fun p => (JSVal.str p.1, p.2)))
          (.bool (jsTruthy encrypted)) w with
      | (.error e, lk, w) => (.error e, lk, w)
      | (.ok _, lk, w) => (.ok true, lk, w)
    | .arr xs =>
      match lk.putBatch (xs.enum.map (fun p => (JSVal.num p.1, p.2)))
          (.bool (jsTruthy encrypted)) w with
      | (.error e, lk, w) => (.error e, lk, w)
      | (.ok _, lk, w) => (.ok true, lk, w)
    | _ =>
      if !(jsIsDefined value) then (.ok false, lk, w)
      else
        match lk._getItem key (.bool (jsTruthy encrypted)) w with
        | (.error e, lk, w) => (.error e, lk, w)
        | (.ok cur, lk, w) =>
          match lk._setItem key (jsValueOf value (some cur))
              (.bool (jsTruthy encrypted)) w with
          | (.error e, lk, w) => (.error e, lk, w)
          | (.ok _, lk, w) => (.ok true, lk, w)

/-- Models `has`: delegates to `_exists`. -/
def Locker.has (lk : Locker) (key : JSVal) (w : World) :
    (Except Err Bool) × Locker × World :=
  lk._exists key w

/-- Models `add`: `put` only when `has` is false; returns whether it
wrote. -/
def Locker.add (lk : Locker) (key value encrypted : JSVal) (w : World) :
    (Except Err Bool) × Locker × World :=
  match lk.has key w with
  | (.error e, lk, w) => (.error e, lk, w)
  | (.ok true, lk, w) => (.ok false, lk, w)
  | (.ok false, lk, w) =>
    match lk.put key value encrypted w with
    | (.error e, lk, w) => (.error e, lk, w)
    | (.ok _, lk, w) => (.ok true, lk, w)

/-- Worker for `get` with an array key: keep only existing keys,
storing `items[k] = this._getItem(k, !!encrypted)`. -/
def Locker.getMany (lk : Locker) (ks : List JSVal) (encb : JSVal)
    (items : List (JStr × JSVal)) (w : World) :
    (Except Err (List (JStr × JSVal))) × Locker × World :=
  match ks with
  | [] => (.ok items, lk, w)
  | k :: rest =>
    match lk.has k w with
    | (.error e, lk, w) => (.error e, lk, w)
    | (.ok true, lk, w) =>
      match lk._getItem k encb w with
      | (.error e, lk, w) => (.error e, lk, w)
      | (.ok v, lk, w) => lk.getMany rest encb (jsInsert (jsToStr k) v items) w
    | (.ok false, lk, w) => lk.getMany rest encb items w

/-- Models `get`, taking the JS arguments list (so the
arity-sensitivity of `[2,3].indexOf(arguments.length) !== -1` is
expressible): an array key returns the mapping of only the existing
keys; an absent single key returns the default exactly when the call
had 2 or 3 arguments, else `undefined`; a present key is read and
decoded. -/
def Locker.getArgs (lk : Locker) (args : List JSVal) (w : World) :
    (Except Err JSVal) × Locker × World :=
  let key := args.getD 0 .undef
  let dflt := args.getD 1 .undef
  let encrypted := args.getD 2 .undef
  match key with
  | .arr ks =>
    match lk.getMany ks (.bool (jsTruthy encrypted)) [] w with
    | (.error e, lk, w) => (.error e, lk, w)
    | (.ok items, lk, w) => (.ok (.obj items), lk, w)
  | _ =>
    match lk.has key w with
    | (.error e, lk, w) => (.error e, lk, w)
    | (.ok false, lk, w) =>
      (.ok (if args.length = 2 ∨ args.length = 3 then dflt else .undef), lk, w)
    | (.ok true, lk, w) => lk._getItem key (.bool (jsTruthy encrypted)) w

/-- Worker for `forget` with an array key:
`key.map(this._removeItem, this)`. -/
def Locker.forgetMany (lk : Locker) (ks : List JSVal) (w : World) :
    (Except Err Unit) × Locker × World :=
  match ks with
  | [] => (.ok (), lk, w)
  | k :: rest =>
    match lk._removeItem k w with
    | (.error e, lk, w) => (.error e, lk, w)
    | (.ok _, lk, w) => lk.forgetMany rest w

/-- Models `forget`: a single key or an array of keys; absent keys are
silently skipped; returns `this` (modelled `()`). -/
def Locker.forget (lk : Locker) (key : JSVal) (w : World) :
    (Except Err Unit) × Locker × World :=
  let key := jsValueOf key none
  match key with
  | .arr ks => lk.forgetMany ks w
  | k =>
    match lk._removeItem k w with
    | (.error e, lk, w) => (.error e, lk, w)
    | (.ok _, lk, w) => (.ok (), lk, w)

/-- Models `pull`: `this.get(key, def, !!encrypted)` (always three
arguments) then `forget`; returns what `get` returned. -/
def Locker.pull (lk : Locker) (key dflt encrypted : JSVal) (w : World) :
    (Except Err JSVal) × Locker × World :=
  match lk.getArgs [key, dflt, .bool (jsTruthy encrypted)] w with
  | (.error e, lk, w) => (.error e, lk, w)
  | (.ok v, lk, w) =>
    match lk.forget key w with
    | (.error e, lk, w) => (.error e, lk, w)
    | (.ok _, lk, w) => (.ok v, lk, w)

/-- The logical key `all` derives from one enumerated physical key:
strip the namespace prefix when the key splits into more than one part
and the first part equals the namespace, else keep the key as is. -/
def allKey (lk : Locker) (pk : JStr) : JStr :=
  let split := jsSplit lk._separator pk
  if split.length > 1 ∧ split.head? = some lk._namespace
  then joinSep lk._separator (split.drop 1)
  else pk

/-- Loop of `all` over the backend's own entries: derive the logical
key, then keep it exactly when `has` holds, reading it with a
one-argument `get`. -/
def Locker.allLoop (lk : Locker) (entries : List (JStr × JStr))
    (items : List (JStr × JSVal)) (w : World) :
    (Except Err (List (JStr × JSVal))) × Locker × World :=
  match entries with
  | [] => (.ok items, lk, w)
  | (pk, _) :: rest =>
    let key := allKey lk pk
    match lk.has (.str key) w with
    | (.error e, lk, w) => (.error e, lk, w)
    | (.ok true, lk, w) =>
      match lk.getArgs [.str key] w with
      | (.error e, lk, w) => (.error e, lk, w)
      | (.ok v, lk, w) => lk.allLoop rest (jsInsert key v items) w
    | (.ok false, lk, w) => lk.allLoop rest items w

/-- Models `all`: enumerate every own key of the backend and collect
the owned entries. -/
def Locker.all (lk : Locker) (w : World) :
    (Except Err (List (JStr × JSVal))) × Locker × World :=
  lk.allLoop (w.getStore lk._driver).items [] w

/-- Models `clean`: `this.forget(Object.keys(this.all()))`. -/
def Locker.clean (lk : Locker) (w : World) :
    (Except Err Unit) × Locker × World :=
  match lk.all w with
  | (.error e, lk, w) => (.error e, lk, w)
  | (.ok items, lk, w) =>
    lk.forget (.arr (items.map (fun p => JSVal.str p.1))) w

/-- Models `empty`: `this._driver.clear()`, with no support check and
no event. -/
def Locker.empty (lk : Locker) (w : World) :
    (Except Err Unit) × Locker × World :=
  (.ok (), lk, w.setStore lk._driver ((w.getStore lk._driver).clear))

/-- Models `count`: `Object.keys(this.all()).length`. -/
def Locker.count (lk : Locker) (w : World) :
    (Except Err Nat) × Locker × World :=
  match lk.all w with
  | (.error e, lk, w) => (.error e, lk, w)
  | (.ok items, lk, w) => (.ok items.length, lk, w)

/-- Models the public `supported`. -/
def Locker.supported (lk : Locker) (driverArg : Option JSVal) (w : World) :
    Bool × Locker × World :=
  lk._checkSupport driverArg w

/-- Models `setCryptoKey`: only a non-blank string (nonempty, and
nonempty after removing all whitespace) is stored into this instance's
crypto-key slot; anything else is ignored. -/
def Locker.setCryptoKey (lk : Locker) (key : JSVal) (w : World) : World :=
  match key with
  | .str s =>
    if s.length = 0 ∨ (stripSpaces s).length = 0 then w
    else w.setSlot lk._cryptoKey (some s)
  | _ => w

/-! ### Scope binding layer -/

/-- Read a scope by index (for a valid index). -/
def World.getScope (w : World) (i : Nat) : Scope :=
  w.scopes.getD i { sid := 0, props := [], subs := [] }

/-- Write back a scope. -/
def World.setScope (w : World) (i : Nat) (sc : Scope) : World :=
  { w with scopes := w.scopes.set i sc }

/-- Models `$scope.$watch`: append a live subscription and return its
position, which identifies the deregistration function. -/
def Scope.watchAdd (sc : Scope) (exp : JStr) (key : JSVal) (encrypted deep : Bool) :
    Scope × Nat :=
  ({ sc with subs := sc.subs ++
      [{ exp := exp, key := key, encrypted := encrypted, deep := deep, active := true }] },
   sc.subs.length)

/-- Invoke a deregistration function: deactivate the subscription it
closes over. -/
def World.disposeSub (w : World) (d : Nat × Nat) : World :=
  let sc := w.getScope d.1
  match sc.subs.get? d.2 with
  | some sub => w.setScope d.1 { sc with subs := sc.subs.set d.2 { sub with active := false } }
  | none => w

/-- Models `bind`: register a watcher under id `index + $scope.$id`
(overwriting any entry already tracked under that id, without invoking
its disposer), using deep-watch mode when `$scope[index]` is currently
an object; when `$scope.$eval(index)` is undefined, seed the property
from `this.get(key, def)` (a two-argument call).  The modelled watcher
ids concatenate the stringified index and `$id` (binder keys are
strings in every claim). -/
def Locker.bind (lk : Locker) (scIdx : Nat) (key dflt attr : JSVal) (w : World) :
    (Except Err Unit) × Locker × World :=
  let index : JSVal := if jsTruthy attr then attr else key
  let sc := w.getScope scIdx
  let watcherId := jsToStr index ++ printInt sc.sid
  let deep := jsIsObject ((jsLookup (jsToStr index) sc.props).getD .undef)
  let wa := sc.watchAdd (jsToStr index) key false deep
  let w := w.setScope scIdx wa.1
  let lk := { lk with _watchers := jsInsert watcherId (scIdx, wa.2) lk._watchers }
  if jsIsUndefined ((jsLookup (jsToStr index) (w.getScope scIdx).props).getD .undef) then
    match lk.getArgs [key, dflt] w with
    | (.error e, lk, w) => (.error e, lk, w)
    | (.ok value, lk, w) =>
      let sc3 := w.getScope scIdx
      let w := w.setScope scIdx
        { sc3 with props := jsInsert (jsToStr index) value sc3.props }
      (.ok (), lk, w)
  else (.ok (), lk, w)

/-- Models `bindEncrypted`: as `bind`, but the watcher persists with
encryption and the seed read is `this.get(key, def, true)`. -/
def Locker.bindEncrypted (lk : Locker) (scIdx : Nat) (key dflt attr : JSVal) (w : World) :
    (Except Err Unit) × Locker × World :=
  let index : JSVal := if jsTruthy attr then attr else key
  let sc := w.getScope scIdx
  let watcherId := jsToStr index ++ printInt sc.sid
  let deep := jsIsObject ((jsLookup (jsToStr index) sc.props).getD .undef)
  let wa := sc.watchAdd (jsToStr index) key true deep
  let w := w.setScope scIdx wa.1
  let lk := { lk with _watchers := jsInsert watcherId (scIdx, wa.2) lk._watchers }
  if jsIsUndefined ((jsLookup (jsToStr index) (w.getScope scIdx).props).getD .undef) then
    match lk.getArgs [key, dflt, .bool true] w with
    | (.error e, lk, w) => (.error e, lk, w)
    | (.ok value, lk, w) =>
      let sc3 := w.getScope scIdx
      let w := w.setScope scIdx
        { sc3 with props := jsInsert (jsToStr index) value sc3.props }
      (.ok (), lk, w)
  else (.ok (), lk, w)

/-- Models `unbind`: null out the bound property, forget the stored
key unless `dontForget`, and when a watcher is tracked under the id,
invoke its disposer and delete the registry entry. -/
def Locker.unbind (lk : Locker) (scIdx : Nat) (key attr dontForget : JSVal) (w : World) :
    (Except Err Unit) × Locker × World :=
  let index : JSVal := if jsTruthy attr then attr else key
  let sc := w.getScope scIdx
  let w := w.setScope scIdx
    { sc with props := jsInsert (jsToStr index) .null sc.props }
  match (if jsTruthy dontForget then ((.ok () : Except Err Unit), lk, w)
         else lk.forget key w) with
  | (.error e, lk, w) => (.error e, lk, w)
  | (.ok _, lk, w) =>
    let watcherId := jsToStr index ++ printInt (w.getScope scIdx).sid
    match jsLookup watcherId lk._watchers with
    | some d =>
      let w := w.disposeSub d
      let lk := { lk with _watchers :=
        lk._watchers.filter (fun p => !(p.1 == watcherId)) }
      (.ok (), lk, w)
    | none => (.ok (), lk, w)

/-- Models `clearWatchers`: invoke every tracked disposer (registry
entries are not deleted). -/
def Locker.clearWatchers (lk : Locker) (w : World) : World :=
  lk._watchers.foldl (fun w p => w.disposeSub p.2) w

/-! ### Construction and derived instances -/

/-- Models `new Locker(driver, namespace)`: resolve the driver (a
failure throws before any field is assigned), allocate a fresh
crypto-key slot holding `null`, and read `eventsEnabled` and
`separator` from the current defaults. -/
def Locker.mkNew (df : Defaults) (driverArg : JSVal) (nsArg : JStr) (w : World) :
    (Except Err Locker) × World :=
  match _resolveDriver driverArg with
  | .error e => (.error e, w)
  | .ok r =>
    let slotIdx := w.slots.length
    let w := { w with slots := w.slots ++ [none] }
    (.ok { _driver := r, _namespace := nsArg,
           _eventsEnabled := df.eventsEnabled, _separator := df.separator,
           _watchers := [], _cryptoKey := slotIdx, _supported := none }, w)

/-- Models `instance`: construct a new `Locker` and copy the current
crypto-key value into it via `setCryptoKey` (a `null` parent value is
rejected by the non-string check, leaving the fresh slot `null`). -/
def Locker.instance (lk : Locker) (df : Defaults) (driverArg : JSVal) (nsArg : JStr)
    (w : World) : (Except Err Locker) × Locker × World :=
  match Locker.mkNew df driverArg nsArg w with
  | (.error e, w) => (.error e, lk, w)
  | (.ok child, w) =>
    let keyArg : JSVal :=
      match w.slotVal lk._cryptoKey with
      | some s => .str s
      | none => .null
    let w := child.setCryptoKey keyArg w
    (.ok child, lk, w)

/-- Models the `driver` method: `this.instance(driver,
this._namespace)`. -/
def Locker.driver (lk : Locker) (df : Defaults) (driverArg : JSVal) (w : World) :
    (Except Err Locker) × Locker × World :=
  lk.instance df driverArg lk._namespace w

/-- Models the `namespace` method (renamed; `namespace` is a Lean
keyword): `this.instance(this._deriveDriver(this._driver),
namespace)`. -/
def Locker.namespaceOp (lk : Locker) (df : Defaults) (nsArg : JStr) (w : World) :
    (Except Err Locker) × Locker × World :=
  let drvArg : JSVal :=
    match _deriveDriver lk._driver with
    | some id => .str id
    | none => .undef
  lk.instance df drvArg nsArg w

/-- Models `getDriver`. -/
def Locker.getDriver (lk : Locker) : DriverRef := lk._driver

/-- Models `getNamespace`. -/
def Locker.getNamespace (lk : Locker) : JStr := lk._namespace

/-- Models the provider's `$get` result: the default instance
`new Locker(defaults.driver, defaults.namespace)`. -/
def lockerService (df : Defaults) (w : World) : (Except Err Locker) × World :=
  Locker.mkNew df (.str df.driver) df.ns w

/-! ### JSON round-trip

`JsonSafe` captures "structurally encodable with a JSON-safe shape":
no `undefined`, no `NaN` (which stringifies to `null`), object keys
distinct, recursively.  For such values, parsing the printed form
recovers the value. -/

/-- Values of a JSON-safe shape. -/
inductive JsonSafe : JSVal → Prop where
  | null : JsonSafe .null
  | bool (b : Bool) : JsonSafe (.bool b)
  | num (n : Int) : JsonSafe (.num n)
  | str (s : JStr) : JsonSafe (.str s)
  | arr (xs : List JSVal) : (∀ x ∈ xs, JsonSafe x) → JsonSafe (.arr xs)
  | obj (fs : List (JStr × JSVal)) : (fs.map Prod.fst).Nodup →
      (∀ kv ∈ fs, JsonSafe kv.2) → JsonSafe (.obj fs)

mutual
/-- Parser fuel needed for a printed value. -/
def jsize : JSVal → Nat
  | .arr xs => 1 + jsizeElems xs
  | .obj fs => 1 + jsizeFields fs
  | _ => 1

/-- Fuel needed for a printed element list. -/
def jsizeElems : List JSVal → Nat
  | [] => 0
  | x :: rest => 1 + jsize x + jsizeElems rest

/-- Fuel needed for a printed field list. -/
def jsizeFields : List (JStr × JSVal) → Nat
  | [] => 0
  | kv :: rest => 1 + jsize kv.2 + jsizeFields rest
end

/-- Acceptable suffixes when parsing a printed value in context: the
end of input or a separator/closer. -/
def delimOk (rest : JStr) : Prop :=
  rest = [] ∨ ∃ c r, rest = c :: r ∧ (c = ',' ∨ c = ']' ∨ c = '}')

theorem skipWs_cons_of_not_ws {c : Char} (h : jsonWs c = false) (r : JStr) :
    skipWs (c :: r) = c :: r := by
  simp [skipWs, h]

theorem digitChar_isDigit {d : Nat} (h : d < 10) : (Nat.digitChar d).isDigit = true := by
  interval_cases d <;> decide

theorem digitChar_toNat {d : Nat} (h : d < 10) : (Nat.digitChar d).toNat - 48 = d := by
  interval_cases d <;> decide

theorem parseHex_digitChar {d : Nat} (h : d < 16) :
    parseHex (Nat.digitChar d) = some d := by
  interval_cases d <;> decide

theorem natDigitsRev_eq_digits : ∀ f n, n ≤ f → natDigitsRev f n = Nat.digits 10 n := by
  intro f
  induction f with
  | zero => intro n h; interval_cases n; simp [natDigitsRev]
  | succ f ih =>
    intro n h
    match n with
    | 0 => simp [natDigitsRev]
    | n + 1 =>
      rw [show natDigitsRev (f + 1) (n + 1) = (n + 1) % 10 :: natDigitsRev f ((n + 1) / 10) from rfl]
      rw [Nat.digits_def' (by norm_num) (Nat.succ_pos n)]
      congr 1
      exact ih _ (by
        have : (n + 1) / 10 < n + 1 := Nat.div_lt_self (Nat.succ_pos n) (by norm_num)
        omega)

theorem natDigitsRev_lt {f n d : Nat} (hf : n ≤ f) (hd : d ∈ natDigitsRev f n) : d < 10 := by
  rw [natDigitsRev_eq_digits f n hf] at hd
  exact Nat.digits_lt_base (by norm_num) hd

theorem parseDigits_append {ds : List Nat} (hds : ∀ d ∈ ds, d < 10) :
    ∀ (acc : Nat) (rest : JStr), (∀ c r, rest = c :: r → c.isDigit = false) →
    parseDigits acc (ds.map Nat.digitChar ++ rest) =
      (ds.foldl (fun a d => a * 10 + d) acc, rest) := by
  induction ds with
  | nil =>
    intro acc rest hrest
    match rest with
    | [] => simp [parseDigits]
    | c :: r => simp [parseDigits, hrest c r rfl]
  | cons d ds ih =>
    intro acc rest hrest
    have hd : d < 10 := hds d (by simp)
    simp only [List.map_cons, List.cons_append, parseDigits,
      digitChar_isDigit hd, if_pos]
    rw [digitChar_toNat hd]
    exact ih (fun x hx => hds x (by simp [hx])) _ rest hrest

theorem foldl_reverse_ofDigits : ∀ (l : List Nat) (a : Nat),
    l.reverse.foldl (fun x d => x * 10 + d) a = a * 10 ^ l.length + Nat.ofDigits 10 l := by
  intro l
  induction l with
  | nil => intro a; simp [Nat.ofDigits]
  | cons d t ih =>
    intro a
    rw [List.reverse_cons, List.foldl_append, ih]
    simp only [List.foldl_cons, List.foldl_nil, Nat.ofDigits_cons, List.length_cons]
    ring

theorem digits_foldl (n : Nat) :
    (Nat.digits 10 n).reverse.foldl (fun a d => a * 10 + d) 0 = n := by
  rw [foldl_reverse_ofDigits]
  simp [Nat.ofDigits_digits]

theorem printNat_ne_nil (n : Nat) : printNat n ≠ [] := by
  unfold printNat
  split
  · simp
  · next h =>
    rw [natDigitsRev_eq_digits n n le_rfl]
    simp [Nat.digits_ne_nil_iff_ne_zero, h]

theorem printNat_all_digits (n : Nat) : ∀ c ∈ printNat n, c.isDigit = true := by
  intro c hc
  unfold printNat at hc
  split at hc
  · simp at hc; simp [hc]
  · simp only [List.mem_map, List.mem_reverse] at hc
    obtain ⟨d, hd, rfl⟩ := hc
    exact digitChar_isDigit (natDigitsRev_lt le_rfl hd)

theorem delimOk_head_not_digit {rest : JStr} (h : delimOk rest) :
    ∀ c r, rest = c :: r → c.isDigit = false := by
  intro c r hr
  rcases h with h | ⟨c', r', hr', hc⟩
  · simp [hr] at h
  · rw [hr] at hr'
    obtain ⟨rfl, rfl⟩ : c = c' ∧ r = r' := by
      constructor <;> [exact (List.cons.injEq .. ▸ hr').1; exact (List.cons.injEq .. ▸ hr').2]
    rcases hc with rfl | rfl | rfl <;> decide

theorem parseDigits_printNat (n : Nat) (rest : JStr)
    (hrest : ∀ c r, rest = c :: r → c.isDigit = false) :
    parseDigits 0 (printNat n ++ rest) = (n, rest) := by
  unfold printNat
  split
  · next h =>
    subst h
    match rest with
    | [] => simp [parseDigits]
    | c :: r => simp [parseDigits, hrest c r rfl]
  · next h =>
    rw [natDigitsRev_eq_digits n n le_rfl]
    rw [parseDigits_append (fun d hd => Nat.digits_lt_base (by norm_num)
      (List.mem_reverse.mp hd)) 0 rest hrest]
    rw [show ((Nat.digits 10 n).reverse.foldl (fun a d => a * 10 + d) 0) = n from
      digits_foldl n]

theorem isDigit_ne {c : Char} (h : c.isDigit = true) :
    c ≠ '-' ∧ c ≠ '"' ∧ c ≠ '[' ∧ c ≠ '{' ∧ c ≠ 't' ∧ c ≠ 'f' ∧ c ≠ 'n' := by
  refine ⟨?_, ?_, ?_, ?_, ?_, ?_, ?_⟩ <;> (rintro rfl; simp at h)

theorem parseNum_printInt (n : Int) (rest : JStr) (h : delimOk rest) :
    parseNum (printInt n ++ rest) = some (.num n, rest) := by
  have hfin : finishNum n rest = some (.num n, rest) := by
    match rest with
    | [] => rfl
    | c :: r =>
      have hc := delimOk_head_not_digit h c r rfl
      rcases h with h' | ⟨c', r', hr', hdel⟩
      · simp at h'
      · obtain ⟨rfl, rfl⟩ : c' = c ∧ r' = r := by
          constructor <;> [exact (List.cons.injEq .. ▸ hr'.symm).1; exact (List.cons.injEq .. ▸ hr'.symm).2]
        rcases hdel with rfl | rfl | rfl <;> simp [finishNum]
  unfold printInt
  split
  · next hneg =>
    obtain ⟨c, t, hct⟩ : ∃ c t, printNat n.natAbs = c :: t := by
      match hp : printNat n.natAbs with
      | [] => exact absurd hp (printNat_ne_nil _)
      | c :: t => exact ⟨c, t, rfl⟩
    have hcd : c.isDigit = true := printNat_all_digits _ c (by rw [hct]; simp)
    simp only [List.cons_append, parseNum, if_pos rfl, hct]
    simp only [List.cons_append, hcd, if_pos]
    rw [show c :: (t ++ rest) = printNat n.natAbs ++ rest by rw [hct]; rfl]
    rw [parseDigits_printNat _ _ (delimOk_head_not_digit h)]
    rw [show -((n.natAbs : Nat) : Int) = n by omega]
    exact hfin
  · next hneg =>
    obtain ⟨c, t, hct⟩ : ∃ c t, printNat n.natAbs = c :: t := by
      match hp : printNat n.natAbs with
      | [] => exact absurd hp (printNat_ne_nil _)
      | c :: t => exact ⟨c, t, rfl⟩
    have hcd : c.isDigit = true := printNat_all_digits _ c (by rw [hct]; simp)
    have hne := isDigit_ne hcd
    rw [hct, List.cons_append]
    simp only [parseNum]
    simp only [if_neg hne.1, hcd, if_pos]
    rw [show c :: (t ++ rest) = (c :: t) ++ rest from rfl, ← hct]
    rw [parseDigits_printNat _ _ (delimOk_head_not_digit h)]
    rw [show ((n.natAbs : Nat) : Int) = n by omega]
    exact hfin

theorem hex4_eval {x y : Char} {hi lo : Nat} (hx : parseHex x = some hi)
    (hy : parseHex y = some lo) :
    hex4 ('0') ('0') x y = some (((0 * 16 + 0) * 16 + hi) * 16 + lo) := by
  unfold hex4
  rw [show parseHex ('0') = some 0 from rfl, hx, hy]

theorem parseJStrAux_escapeChar (c : Char) (mid : JStr) (res : JStr × JStr)
    (h : parseJStrAux mid = some res) :
    parseJStrAux (escapeChar c ++ mid) = some (c :: res.1, res.2) := by
  unfold escapeChar
  by_cases h1 : c = '"'
  · subst h1
    rw [if_pos rfl,
      show (('\\' :: ('"' :: [])) ++ mid : JStr) = '\\' :: '"' :: mid from rfl]
    have step : parseJStrAux ('\\' :: '"' :: mid)
        = (parseJStrAux mid).map (fun p => ('"' :: p.1, p.2)) := by
      rw [parseJStrAux.eq_def]
      rfl
    rw [step, h]
    rfl
  · rw [if_neg h1]
    by_cases h2 : c = '\\'
    · subst h2
      rw [if_pos rfl,
        show (('\\' :: ('\\' :: [])) ++ mid : JStr) = '\\' :: '\\' :: mid from rfl]
      have step : parseJStrAux ('\\' :: '\\' :: mid)
          = (parseJStrAux mid).map (fun p => ('\\' :: p.1, p.2)) := by
        rw [parseJStrAux.eq_def]
        rfl
      rw [step, h]
      rfl
    · rw [if_neg h2]
      by_cases h3 : c = Char.ofNat 8
      · subst h3
        rw [if_pos rfl,
          show (('\\' :: ('b' :: [])) ++ mid : JStr) = '\\' :: 'b' :: mid from rfl]
        have step : parseJStrAux ('\\' :: 'b' :: mid)
            = (parseJStrAux mid).map (fun p => (Char.ofNat 8 :: p.1, p.2)) := by
          rw [parseJStrAux.eq_def]
          rfl
        rw [step, h]
        rfl
      · rw [if_neg h3]
        by_cases h4 : c = '\t'
        · subst h4
          rw [if_pos rfl,
            show (('\\' :: ('t' :: [])) ++ mid : JStr) = '\\' :: 't' :: mid from rfl]
          have step : parseJStrAux ('\\' :: 't' :: mid)
              = (parseJStrAux mid).map (fun p => ('\t' :: p.1, p.2)) := by
            rw [parseJStrAux.eq_def]
            rfl
          rw [step, h]
          rfl
        · rw [if_neg h4]
          by_cases h5 : c = '\n'
          · subst h5
            rw [if_pos rfl,
              show (('\\' :: ('n' :: [])) ++ mid : JStr) = '\\' :: 'n' :: mid from rfl]
            have step : parseJStrAux ('\\' :: 'n' :: mid)
                = (parseJStrAux mid).map (fun p => ('\n' :: p.1, p.2)) := by
              rw [parseJStrAux.eq_def]
              rfl
            rw [step, h]
            rfl
          · rw [if_neg h5]
            by_cases h6 : c = Char.ofNat 12
            · subst h6
              rw [if_pos rfl,
                show (('\\' :: ('f' :: [])) ++ mid : JStr) = '\\' :: 'f' :: mid from rfl]
              have step : parseJStrAux ('\\' :: 'f' :: mid)
                  = (parseJStrAux mid).map (fun p => (Char.ofNat 12 :: p.1, p.2)) := by
                rw [parseJStrAux.eq_def]
                rfl
              rw [step, h]
              rfl
            · rw [if_neg h6]
              by_cases h7 : c = '\r'
              · subst h7
                rw [if_pos rfl,
                  show (('\\' :: ('r' :: [])) ++ mid : JStr) = '\\' :: 'r' :: mid from rfl]
                have step : parseJStrAux ('\\' :: 'r' :: mid)
                    = (parseJStrAux mid).map (fun p => ('\r' :: p.1, p.2)) := by
                  rw [parseJStrAux.eq_def]
                  rfl
                rw [step, h]
                rfl
              · rw [if_neg h7]
                by_cases h8 : c.toNat < 32
                · rw [if_pos h8]
                  have hhi : c.toNat / 16 < 16 := by omega
                  have hlo : c.toNat % 16 < 16 := by omega
                  rw [show (('\\' :: ('u' :: ('0' :: ('0' :: (Nat.digitChar (c.toNat / 16)
                        :: (Nat.digitChar (c.toNat % 16) :: [])))))) ++ mid : JStr)
                      = '\\' :: 'u' :: '0' :: '0' :: Nat.digitChar (c.toNat / 16)
                        :: Nat.digitChar (c.toNat % 16) :: mid from rfl]
                  have step : parseJStrAux ('\\' :: 'u' :: '0' :: '0'
                        :: Nat.digitChar (c.toNat / 16) :: Nat.digitChar (c.toNat % 16) :: mid)
                      = (match hex4 ('0') ('0') (Nat.digitChar (c.toNat / 16))
                            (Nat.digitChar (c.toNat % 16)) with
                         | some code =>
                           (parseJStrAux mid).map (fun p => (Char.ofNat code :: p.1, p.2))
                         | none => none) := by
                    rw [parseJStrAux.eq_def]
                    rfl
                  rw [step, hex4_eval (parseHex_digitChar hhi) (parseHex_digitChar hlo)]
                  have harith : ((0 * 16 + 0) * 16 + c.toNat / 16) * 16 + c.toNat % 16
                      = c.toNat := by omega
                  show (parseJStrAux mid).map
                      (fun p => (Char.ofNat (((0 * 16 + 0) * 16 + c.toNat / 16) * 16
                        + c.toNat % 16) :: p.1, p.2)) = some (c :: res.1, res.2)
                  simp only [harith, Char.ofNat_toNat, h]
                  rfl
                · rw [if_neg h8]
                  rw [List.singleton_append]
                  have step : parseJStrAux (c :: mid)
                      = (parseJStrAux mid).map (fun p => (c :: p.1, p.2)) := by
                    rw [parseJStrAux.eq_def]
                    simp only [if_neg h1, if_neg h2]
                  rw [step, h]
                  rfl

theorem parseJStrAux_escapeStr (s : JStr) :
    ∀ rest, parseJStrAux (escapeStr s ++ '"' :: rest) = some (s, rest) := by
  induction s with
  | nil =>
    intro rest
    show parseJStrAux ('"' :: rest) = some ([], rest)
    rw [parseJStrAux.eq_def]
    rfl
  | cons c t ih =>
    intro rest
    rw [show escapeStr (c :: t) = escapeChar c ++ escapeStr t from rfl, List.append_assoc]
    exact parseJStrAux_escapeChar c _ (t, rest) (ih rest)

theorem parseJStrAux_printJStr (s : JStr) (rest : JStr) :
    parseJStrAux (List.drop 1 (printJStr s) ++ rest) = some (s, rest) := by
  rw [show List.drop 1 (printJStr s) = escapeStr s ++ ('"' :: []) from rfl]
  rw [List.append_assoc]
  exact parseJStrAux_escapeStr s rest

theorem isDigit_not_ws {c : Char} (h : c.isDigit = true) : jsonWs c = false := by
  by_contra hw
  simp only [Bool.not_eq_false] at hw
  have : ((c = ' ' ∨ c = '\t') ∨ c = '\n') ∨ c = '\r' := by
    simpa [jsonWs] using hw
  rcases this with ((rfl | rfl) | rfl) | rfl <;> simp at h

theorem isDigit_ne_more {c : Char} (h : c.isDigit = true) :
    c ≠ ']' ∧ c ≠ '}' ∧ c ≠ ',' := by
  refine ⟨?_, ?_, ?_⟩ <;> (rintro rfl; simp at h)

theorem printInt_exists_head (n : Int) :
    ∃ c t, printInt n = c :: t ∧ (c = '-' ∨ c.isDigit = true) := by
  unfold printInt
  split
  · obtain ⟨c, t, hct⟩ : ∃ c t, printNat n.natAbs = c :: t := by
      match hp : printNat n.natAbs with
      | [] => exact absurd hp (printNat_ne_nil _)
      | c :: t => exact ⟨c, t, rfl⟩
    exact ⟨'-', printNat n.natAbs, rfl, Or.inl rfl⟩
  · obtain ⟨c, t, hct⟩ : ∃ c t, printNat n.natAbs = c :: t := by
      match hp : printNat n.natAbs with
      | [] => exact absurd hp (printNat_ne_nil _)
      | c :: t => exact ⟨c, t, rfl⟩
    exact ⟨c, t, hct, Or.inr (printNat_all_digits _ c (by rw [hct]; simp))⟩

theorem parseVal_null (f : Nat) (rest : JStr) :
    parseVal (f + 1) (('n' :: ('u' :: ('l' :: ('l' :: [])))) ++ rest) = some (.null, rest) := by
  rw [show (('n' :: ('u' :: ('l' :: ('l' :: [])))) ++ rest : JStr)
      = 'n' :: 'u' :: 'l' :: 'l' :: rest from rfl, parseVal]
  rfl

theorem parseVal_true (f : Nat) (rest : JStr) :
    parseVal (f + 1) (('t' :: ('r' :: ('u' :: ('e' :: [])))) ++ rest) = some (.bool true, rest) := by
  rw [show (('t' :: ('r' :: ('u' :: ('e' :: [])))) ++ rest : JStr)
      = 't' :: 'r' :: 'u' :: 'e' :: rest from rfl, parseVal]
  rfl

theorem parseVal_false (f : Nat) (rest : JStr) :
    parseVal (f + 1) (('f' :: ('a' :: ('l' :: ('s' :: ('e' :: []))))) ++ rest)
      = some (.bool false, rest) := by
  rw [show (('f' :: ('a' :: ('l' :: ('s' :: ('e' :: []))))) ++ rest : JStr)
      = 'f' :: 'a' :: 'l' :: 's' :: 'e' :: rest from rfl, parseVal]
  rfl

theorem parseVal_quote (f : Nat) (r : JStr) :
    parseVal (f + 1) ('"' :: r) = (parseJStrAux r).map (fun p => (JSVal.str p.1, p.2)) := by
  rw [parseVal]
  rfl

theorem parseVal_str (f : Nat) (s rest : JStr) :
    parseVal (f + 1) (printJStr s ++ rest) = some (.str s, rest) := by
  rw [show printJStr s ++ rest = '"' :: (escapeStr s ++ ('"' :: []) ++ rest) from by
    simp [printJStr]]
  rw [parseVal_quote, List.append_assoc, List.singleton_append,
    parseJStrAux_escapeStr s rest]
  rfl

theorem parseVal_num (f : Nat) (n : Int) (rest : JStr) (hd : delimOk rest) :
    parseVal (f + 1) (printInt n ++ rest) = some (.num n, rest) := by
  obtain ⟨c, t, hct, hclass⟩ := printInt_exists_head n
  have hne : c ≠ '"' ∧ c ≠ '[' ∧ c ≠ '{' ∧ c ≠ 't' ∧ c ≠ 'f' ∧ c ≠ 'n' := by
    rcases hclass with rfl | hdig
    · refine ⟨?_, ?_, ?_, ?_, ?_, ?_⟩ <;> decide
    · have := isDigit_ne hdig
      exact ⟨this.2.1, this.2.2.1, this.2.2.2.1, this.2.2.2.2.1,
        this.2.2.2.2.2.1, this.2.2.2.2.2.2⟩
  have hws : jsonWs c = false := by
    rcases hclass with rfl | hdig
    · decide
    · exact isDigit_not_ws hdig
  rw [hct, List.cons_append, parseVal, skipWs_cons_of_not_ws hws]
  simp only [if_neg hne.1, if_neg hne.2.1, if_neg hne.2.2.1, if_neg hne.2.2.2.1,
    if_neg hne.2.2.2.2.1, if_neg hne.2.2.2.2.2]
  rw [show c :: (t ++ rest) = printInt n ++ rest by rw [hct]; rfl]
  exact parseNum_printInt n rest hd

theorem parseVal_arr_nil (f : Nat) (rest : JStr) :
    parseVal (f + 1) (('[' :: (']' :: [])) ++ rest) = some (.arr [], rest) := by
  rw [show (('[' :: (']' :: [])) ++ rest : JStr) = '[' :: ']' :: rest from rfl, parseVal]
  rfl

theorem parseVal_arr_cons (f : Nat) (c2 : Char) (r2 : JStr)
    (hws2 : jsonWs c2 = false) (hne2 : c2 ≠ ']') :
    parseVal (f + 1) ('[' :: (c2 :: r2)) =
      (parseElems f (c2 :: r2)).map (fun p => (JSVal.arr p.1, p.2)) := by
  rw [parseVal, skipWs_cons_of_not_ws (by decide : jsonWs ('[') = false)]
  simp only [skipWs_cons_of_not_ws hws2, if_neg hne2]
  rfl

theorem parseVal_obj_nil (f : Nat) (rest : JStr) :
    parseVal (f + 1) (('{' :: ('}' :: [])) ++ rest) = some (.obj [], rest) := by
  rw [show (('{' :: ('}' :: [])) ++ rest : JStr) = '{' :: '}' :: rest from rfl, parseVal]
  rfl

theorem parseVal_obj_cons (f : Nat) (c2 : Char) (r2 : JStr)
    (hws2 : jsonWs c2 = false) (hne2 : c2 ≠ '}') :
    parseVal (f + 1) ('{' :: (c2 :: r2)) =
      (parseFields f (c2 :: r2)).map (fun p => (JSVal.obj p.1, p.2)) := by
  rw [parseVal, skipWs_cons_of_not_ws (by decide : jsonWs ('{') = false)]
  simp only [skipWs_cons_of_not_ws hws2, if_neg hne2]
  rfl

theorem printVal_safe {v : JSVal} (hs : JsonSafe v) : printVal v = some (printValT v) := by
  cases hs <;> rfl

theorem printVal_head {v : JSVal} {s : JStr} (hs : JsonSafe v) (hp : printVal v = some s) :
    ∃ c t, s = c :: t ∧ jsonWs c = false ∧ c ≠ ']' ∧ c ≠ '}' ∧ c ≠ ',' := by
  cases hs with
  | null =>
    obtain rfl := Option.some.inj hp
    exact ⟨'n', _, rfl, by decide, by decide, by decide, by decide⟩
  | bool b =>
    obtain rfl := Option.some.inj hp
    cases b
    · exact ⟨'f', _, rfl, by decide, by decide, by decide, by decide⟩
    · exact ⟨'t', _, rfl, by decide, by decide, by decide, by decide⟩
  | num n =>
    obtain rfl := Option.some.inj hp
    obtain ⟨c, t, hct, hclass⟩ := printInt_exists_head n
    refine ⟨c, t, by rw [show printValT (JSVal.num n) = printInt n from rfl, hct],
      ?_, ?_, ?_, ?_⟩
    · rcases hclass with rfl | hdig
      · decide
      · exact isDigit_not_ws hdig
    · rcases hclass with rfl | hdig
      · decide
      · exact (isDigit_ne_more hdig).1
    · rcases hclass with rfl | hdig
      · decide
      · exact (isDigit_ne_more hdig).2.1
    · rcases hclass with rfl | hdig
      · decide
      · exact (isDigit_ne_more hdig).2.2
  | str s0 =>
    obtain rfl := Option.some.inj hp
    exact ⟨'"', _, rfl, by decide, by decide, by decide, by decide⟩
  | arr xs _ =>
    obtain rfl := Option.some.inj hp
    exact ⟨'[', _, rfl, by decide, by decide, by decide, by decide⟩
  | obj fs _ _ =>
    obtain rfl := Option.some.inj hp
    exact ⟨'{', _, rfl, by decide, by decide, by decide, by decide⟩

theorem jsizeElems_cons (x : JSVal) (xs : List JSVal) :
    jsizeElems (x :: xs) = 1 + jsize x + jsizeElems xs := rfl

theorem jsizeFields_cons (kv : JStr × JSVal) (fs : List (JStr × JSVal)) :
    jsizeFields (kv :: fs) = 1 + jsize kv.2 + jsizeFields fs := rfl

theorem jsize_pos (v : JSVal) : 1 ≤ jsize v := by
  cases v <;> simp [jsize]

theorem delimOk_comma (r : JStr) : delimOk (',' :: r) :=
  Or.inr ⟨',', r, rfl, Or.inl rfl⟩

theorem delimOk_rbracket (r : JStr) : delimOk (']' :: r) :=
  Or.inr ⟨']', r, rfl, Or.inr (Or.inl rfl)⟩

theorem delimOk_rbrace (r : JStr) : delimOk ('}' :: r) :=
  Or.inr ⟨'}', r, rfl, Or.inr (Or.inr rfl)⟩

theorem parseElems_print :
    ∀ (xs : List JSVal), (∀ x ∈ xs, JsonSafe x) →
    (∀ x ∈ xs, ∀ f s rest, jsize x ≤ f → printVal x = some s → delimOk rest →
      parseVal f (s ++ rest) = some (x, rest)) →
    ∀ f rest, xs ≠ [] → jsizeElems xs ≤ f → delimOk rest →
      parseElems f (printElemsT xs ++ (']' :: rest)) = some (xs, rest) := by
  intro xs
  induction xs with
  | nil => intro _ _ f rest h; exact absurd rfl h
  | cons x xs' ihl =>
    intro hx ih f rest _ hf hd
    have hsx : JsonSafe x := hx x (by simp)
    have hpx : printVal x = some (printValT x) := printVal_safe hsx
    have hf1 : 1 + jsize x + jsizeElems xs' ≤ f := by
      rw [jsizeElems_cons] at hf; exact hf
    obtain ⟨f', rfl⟩ : ∃ f', f = f' + 1 := ⟨f - 1, by omega⟩
    cases xs' with
    | nil =>
      rw [show printElemsT [x] = printValT x from rfl]
      rw [parseElems]
      rw [ih x (by simp) f' (printValT x) (']' :: rest) (by omega) hpx
        (delimOk_rbracket rest)]
      rfl
    | cons y ys =>
      rw [show printElemsT (x :: y :: ys)
          = printValT x ++ (',' :: printElemsT (y :: ys)) from rfl]
      rw [List.append_assoc]
      rw [show ((',' :: printElemsT (y :: ys)) ++ (']' :: rest) : JStr)
          = ',' :: (printElemsT (y :: ys) ++ (']' :: rest)) from rfl]
      rw [parseElems]
      rw [ih x (by simp) f' (printValT x)
        (',' :: (printElemsT (y :: ys) ++ (']' :: rest))) (by omega) hpx
        (delimOk_comma _)]
      show (parseElems f' (printElemsT (y :: ys) ++ (']' :: rest))).map
        (fun p => (x :: p.1, p.2)) = some (x :: y :: ys, rest)
      rw [ihl (fun z hz => hx z (by simp [hz])) (fun z hz => ih z (by simp [hz]))
        f' rest (by simp) (by rw [jsizeElems_cons] at hf1 ⊢; omega) hd]
      rfl

theorem safe_not_undef {v : JSVal} (hs : JsonSafe v) : jsIsUndefined v = false := by
  cases hs <;> rfl

theorem printFieldsTailT_eq (fs : List (JStr × JSVal))
    (h : ∀ kv ∈ fs, jsIsUndefined kv.2 = false) (hne : fs ≠ []) :
    printFieldsTailT fs = ',' :: printFieldsT fs := by
  match fs with
  | [] => exact absurd rfl hne
  | (k, v) :: t =>
    have hv : jsIsUndefined v = false := h (k, v) (by simp)
    rw [printFieldsTailT, printFieldsT]
    simp only [hv, Bool.false_eq_true, if_false]
    simp

theorem parseFields_step (f : Nat) (k : JStr) (r : JStr) :
    parseFields (f + 1) (printJStr k ++ (':' :: r)) =
      (match parseVal f r with
       | none => none
       | some (v, r3) =>
         match skipWs r3 with
         | [] => none
         | c3 :: r4 =>
           if c3 = ',' then (parseFields f r4).map (fun p => ((k, v) :: p.1, p.2))
           else if c3 = '}' then some ([(k, v)], r4)
           else none) := by
  rw [show printJStr k ++ (':' :: r) = '"' :: (escapeStr k ++ ('"' :: (':' :: r))) from by
    simp [printJStr]]
  rw [parseFields, skipWs_cons_of_not_ws (by decide : jsonWs ('"') = false)]
  simp only [parseJStrAux_escapeStr]
  rfl

theorem parseFields_print :
    ∀ (fs : List (JStr × JSVal)), (∀ kv ∈ fs, JsonSafe kv.2) →
    (∀ kv ∈ fs, ∀ f s rest, jsize kv.2 ≤ f → printVal kv.2 = some s → delimOk rest →
      parseVal f (s ++ rest) = some (kv.2, rest)) →
    ∀ f rest, fs ≠ [] → jsizeFields fs ≤ f → delimOk rest →
      parseFields f (printFieldsT fs ++ ('}' :: rest)) = some (fs, rest) := by
  intro fs
  induction fs with
  | nil => intro _ _ f rest h; exact absurd rfl h
  | cons kv fs' ihl =>
    intro hx ih f rest _ hf hd
    obtain ⟨k, v⟩ := kv
    have hsv : JsonSafe v := hx (k, v) (by simp)
    have hpv := printVal_safe hsv
    have hvund : jsIsUndefined v = false := safe_not_undef hsv
    have hf1 : 1 + jsize v + jsizeFields fs' ≤ f := by
      rw [jsizeFields_cons] at hf; exact hf
    obtain ⟨f', rfl⟩ : ∃ f', f = f' + 1 := ⟨f - 1, by omega⟩
    rw [show printFieldsT ((k, v) :: fs')
        = printJStr k ++ (':' :: printValT v) ++ printFieldsTailT fs' from by
      rw [printFieldsT]
      simp only [hvund, Bool.false_eq_true, if_false]]
    cases fs' with
    | nil =>
      rw [show printFieldsTailT ([] : List (JStr × JSVal)) = [] from rfl,
        List.append_nil, List.append_assoc,
        show ((':' :: printValT v) ++ ('}' :: rest) : JStr)
          = ':' :: (printValT v ++ ('}' :: rest)) from rfl]
      rw [parseFields_step]
      rw [ih (k, v) (by simp) f' (printValT v) ('}' :: rest)
        (by show jsize v ≤ f'; omega) hpv (delimOk_rbrace rest)]
      rfl
    | cons kv2 fs2 =>
      rw [printFieldsTailT_eq (kv2 :: fs2)
        (fun z hz => safe_not_undef (hx z (by simp [hz]))) (by simp)]
      rw [List.append_assoc, List.append_assoc]
      rw [show ((':' :: printValT v) ++ ((',' :: printFieldsT (kv2 :: fs2)) ++ ('}' :: rest)) : JStr)
          = ':' :: (printValT v ++ (',' :: (printFieldsT (kv2 :: fs2) ++ ('}' :: rest)))) from by
        simp]
      rw [parseFields_step]
      rw [ih (k, v) (by simp) f' (printValT v)
        (',' :: (printFieldsT (kv2 :: fs2) ++ ('}' :: rest)))
        (by show jsize v ≤ f'; omega) hpv (delimOk_comma _)]
      show (parseFields f' (printFieldsT (kv2 :: fs2) ++ ('}' :: rest))).map
        (fun p => ((k, v) :: p.1, p.2)) = some ((k, v) :: kv2 :: fs2, rest)
      rw [ihl (fun z hz => hx z (by simp [hz])) (fun z hz => ih z (by simp [hz]))
        f' rest (by simp) (by rw [jsizeFields_cons] at hf1 ⊢; omega) hd]
      rfl

theorem jsize_arr (xs : List JSVal) : jsize (.arr xs) = 1 + jsizeElems xs := rfl

theorem jsize_obj (fs : List (JStr × JSVal)) : jsize (.obj fs) = 1 + jsizeFields fs := rfl

theorem parseVal_print {v : JSVal} (hs : JsonSafe v) :
    ∀ f s rest, jsize v ≤ f → printVal v = some s → delimOk rest →
      parseVal f (s ++ rest) = some (v, rest) := by
  induction hs with
  | null =>
    intro f s rest hf hp hd
    obtain rfl := Option.some.inj hp
    obtain ⟨f', rfl⟩ : ∃ f', f = f' + 1 :=
      ⟨f - 1, by have := jsize_pos JSVal.null; omega⟩
    exact parseVal_null f' rest
  | bool b =>
    intro f s rest hf hp hd
    obtain rfl := Option.some.inj hp
    obtain ⟨f', rfl⟩ : ∃ f', f = f' + 1 :=
      ⟨f - 1, by have := jsize_pos (JSVal.bool b); omega⟩
    cases b
    · exact parseVal_false f' rest
    · exact parseVal_true f' rest
  | num n =>
    intro f s rest hf hp hd
    obtain rfl := Option.some.inj hp
    obtain ⟨f', rfl⟩ : ∃ f', f = f' + 1 :=
      ⟨f - 1, by have := jsize_pos (JSVal.num n); omega⟩
    exact parseVal_num f' n rest hd
  | str s0 =>
    intro f s rest hf hp hd
    obtain rfl := Option.some.inj hp
    obtain ⟨f', rfl⟩ : ∃ f', f = f' + 1 :=
      ⟨f - 1, by have := jsize_pos (JSVal.str s0); omega⟩
    exact parseVal_str f' s0 rest
  | arr xs hmem ih =>
    intro f s rest hf hp hd
    obtain rfl := Option.some.inj hp
    obtain ⟨f', rfl⟩ : ∃ f', f = f' + 1 :=
      ⟨f - 1, by have := jsize_pos (JSVal.arr xs); omega⟩
    rw [show printValT (.arr xs) = '[' :: (printElemsT xs ++ (']' :: [])) from rfl]
    cases xs with
    | nil =>
      rw [show ('[' :: (printElemsT ([] : List JSVal) ++ (']' :: [])) : JStr)
          = '[' :: (']' :: []) from rfl]
      exact parseVal_arr_nil f' rest
    | cons x xs' =>
      have hsx : JsonSafe x := hmem x (by simp)
      have hpx := printVal_safe hsx
      obtain ⟨cx, tx, hshape, hws, hnb, _, _⟩ := printVal_head hsx hpx
      rw [show ('[' :: (printElemsT (x :: xs') ++ (']' :: []))) ++ rest
          = '[' :: (printElemsT (x :: xs') ++ (']' :: rest)) from by simp]
      obtain ⟨R, hR⟩ : ∃ R, printElemsT (x :: xs') ++ (']' :: rest) = cx :: R := by
        cases xs' with
        | nil =>
          refine ⟨tx ++ (']' :: rest), ?_⟩
          rw [show printElemsT [x] = printValT x from rfl, hshape]
          simp
        | cons y ys =>
          refine ⟨(tx ++ (',' :: printElemsT (y :: ys))) ++ (']' :: rest), ?_⟩
          rw [show printElemsT (x :: y :: ys)
              = printValT x ++ (',' :: printElemsT (y :: ys)) from rfl, hshape]
          simp
      rw [hR, parseVal_arr_cons f' cx R hws hnb, ← hR]
      rw [parseElems_print (x :: xs') hmem (fun z hz => ih z hz) f' rest (by simp)
        (by rw [jsize_arr] at hf; omega) hd]
      rfl
  | obj fs hnodup hmem ih =>
    intro f s rest hf hp hd
    obtain rfl := Option.some.inj hp
    obtain ⟨f', rfl⟩ : ∃ f', f = f' + 1 :=
      ⟨f - 1, by have := jsize_pos (JSVal.obj fs); omega⟩
    rw [show printValT (.obj fs) = '{' :: (printFieldsT fs ++ ('}' :: [])) from rfl]
    cases fs with
    | nil =>
      rw [show ('{' :: (printFieldsT ([] : List (JStr × JSVal)) ++ ('}' :: [])) : JStr)
          = '{' :: ('}' :: []) from rfl]
      exact parseVal_obj_nil f' rest
    | cons kv fs' =>
      obtain ⟨k, v⟩ := kv
      have hsv : JsonSafe v := hmem (k, v) (by simp)
      have hvund : jsIsUndefined v = false := safe_not_undef hsv
      rw [show ('{' :: (printFieldsT ((k, v) :: fs') ++ ('}' :: []))) ++ rest
          = '{' :: (printFieldsT ((k, v) :: fs') ++ ('}' :: rest)) from by simp]
      obtain ⟨R, hR⟩ : ∃ R, printFieldsT ((k, v) :: fs') ++ ('}' :: rest) = '"' :: R := by
        refine ⟨(escapeStr k ++ ('"' :: []) ++ (':' :: printValT v)
          ++ printFieldsTailT fs') ++ ('}' :: rest), ?_⟩
        rw [show printFieldsT ((k, v) :: fs')
            = printJStr k ++ (':' :: printValT v) ++ printFieldsTailT fs' from by
          rw [printFieldsT]
          simp only [hvund, Bool.false_eq_true, if_false]]
        simp [printJStr]
      rw [hR, parseVal_obj_cons f' '"' R (by decide) (by decide), ← hR]
      rw [parseFields_print ((k, v) :: fs') hmem (fun z hz => ih z hz) f' rest
        (by simp) (by rw [jsize_obj] at hf; omega) hd]
      rfl

theorem printInt_ne_nil (n : Int) : printInt n ≠ [] := by
  unfold printInt
  split
  · simp
  · exact printNat_ne_nil _

theorem jsizeElems_le (xs : List JSVal) (hx : ∀ x ∈ xs, jsize x ≤ (printValT x).length) :
    jsizeElems xs ≤ (printElemsT xs).length + 1 := by
  induction xs with
  | nil => simp [jsizeElems, printElemsT]
  | cons x t iht =>
    cases t with
    | nil =>
      have := hx x (by simp)
      rw [jsizeElems_cons, show printElemsT [x] = printValT x from rfl]
      rw [show jsizeElems ([] : List JSVal) = 0 from rfl]
      omega
    | cons y ys =>
      rw [jsizeElems_cons, show printElemsT (x :: y :: ys)
          = printValT x ++ (',' :: printElemsT (y :: ys)) from rfl]
      have h1 := hx x (by simp)
      have h2 := iht (fun z hz => hx z (by simp [hz]))
      rw [List.length_append]
      simp only [List.length_cons]
      omega

theorem jsizeFields_tail_le (fs : List (JStr × JSVal))
    (hx : ∀ kv ∈ fs, JsonSafe kv.2)
    (hv : ∀ kv ∈ fs, jsize kv.2 ≤ (printValT kv.2).length) :
    jsizeFields fs ≤ (printFieldsTailT fs).length := by
  induction fs with
  | nil =>
    rw [show jsizeFields ([] : List (JStr × JSVal)) = 0 from rfl]
    omega
  | cons kv t iht =>
    obtain ⟨k, v⟩ := kv
    have hund := safe_not_undef (hx (k, v) (by simp))
    rw [jsizeFields_cons, show printFieldsTailT ((k, v) :: t)
        = (',' :: (printJStr k ++ (':' :: printValT v))) ++ printFieldsTailT t from by
      rw [printFieldsTailT]
      simp only [hund, Bool.false_eq_true, if_false]]
    have h1 : jsize v ≤ (printValT v).length := hv (k, v) (by simp)
    have h2 := iht (fun z hz => hx z (by simp [hz])) (fun z hz => hv z (by simp [hz]))
    simp only [List.length_append, List.length_cons]
    omega

theorem jsizeFields_le (fs : List (JStr × JSVal))
    (hx : ∀ kv ∈ fs, JsonSafe kv.2)
    (hv : ∀ kv ∈ fs, jsize kv.2 ≤ (printValT kv.2).length) :
    jsizeFields fs ≤ (printFieldsT fs).length + 1 := by
  cases fs with
  | nil =>
    rw [show jsizeFields ([] : List (JStr × JSVal)) = 0 from rfl]
    omega
  | cons kv t =>
    obtain ⟨k, v⟩ := kv
    have hund := safe_not_undef (hx (k, v) (by simp))
    rw [jsizeFields_cons, show printFieldsT ((k, v) :: t)
        = printJStr k ++ (':' :: printValT v) ++ printFieldsTailT t from by
      rw [printFieldsT]
      simp only [hund, Bool.false_eq_true, if_false]]
    have h1 : jsize v ≤ (printValT v).length := hv (k, v) (by simp)
    have h2 := jsizeFields_tail_le t (fun z hz => hx z (by simp [hz]))
      (fun z hz => hv z (by simp [hz]))
    simp only [List.length_append, List.length_cons]
    omega

theorem jsize_le_length {v : JSVal} (hs : JsonSafe v) :
    jsize v ≤ (printValT v).length := by
  induction hs with
  | null => decide
  | bool b => cases b <;> decide
  | num n =>
    rw [show printValT (.num n) = printInt n from rfl,
      show jsize (.num n) = 1 from rfl]
    have := printInt_ne_nil n
    cases h : printInt n with
    | nil => exact absurd h this
    | cons c t => simp
  | str s0 =>
    rw [show printValT (.str s0) = printJStr s0 from rfl,
      show jsize (.str s0) = 1 from rfl, printJStr]
    simp
  | arr xs hmem ih =>
    rw [jsize_arr, show printValT (.arr xs) = '[' :: (printElemsT xs ++ (']' :: [])) from rfl]
    have := jsizeElems_le xs ih
    simp only [List.length_cons, List.length_append]
    omega
  | obj fs hnodup hmem ih =>
    rw [jsize_obj, show printValT (.obj fs) = '{' :: (printFieldsT fs ++ ('}' :: [])) from rfl]
    have := jsizeFields_le fs hmem ih
    simp only [List.length_cons, List.length_append]
    omega

/-- The JSON round trip: parsing the printed form of a JSON-safe value
recovers the value. -/
theorem jsonParse_printValT {v : JSVal} (hs : JsonSafe v) :
    jsonParse (printValT v) = some v := by
  unfold jsonParse
  have h := parseVal_print hs ((printValT v).length + 1) (printValT v) []
    (le_trans (jsize_le_length hs) (by omega)) (printVal_safe hs) (Or.inl rfl)
  rw [List.append_nil] at h
  rw [h]
  rfl

/-- Round trip through the engine's codec: `_unserialize` after
`_serialize` is the identity on JSON-safe values. -/
theorem unserialize_serialize {v : JSVal} (hs : JsonSafe v) :
    _unserialize (_serialize v) = v := by
  have h1 : _serialize v = .str (printValT v) := by
    unfold _serialize
    rw [printVal_safe hs]
  rw [h1]
  show (match jsonParse (printValT v) with
    | some j => j
    | none => JSVal.str (printValT v)) = v
  rw [jsonParse_printValT hs]

/-! ### Splitting on a single-character separator

The claims about `all`, `clean` and `count` concern instances whose
separator is a single character (the default `'.'`) that does not occur
in the namespace; `splitChar` is a clean structural presentation of
`jsSplit` for that case. -/

/-- Structural split on one character. -/
def splitChar (c : Char) : JStr → List JStr
  | [] => [[]]
  | d :: t =>
    if c = d then [] :: splitChar c t
    else
      match splitChar c t with
      | [] => [[d]]
      | h :: hs => (d :: h) :: hs

theorem splitChar_ne_nil (c : Char) (s : JStr) : splitChar c s ≠ [] := by
  cases s with
  | nil => simp [splitChar]
  | cons d t =>
    rw [splitChar]
    split
    · simp
    · split <;> simp

theorem splitFuel_single (c : Char) :
    ∀ f s, List.length s < f → splitFuel f [c] s = splitChar c s := by
  intro f
  induction f with
  | zero => intro s h; omega
  | succ f ih =>
    intro s h
    match s with
    | [] =>
      rw [splitFuel, splitChar]
      rw [show startsWith [c] [] = false from rfl]
      simp
    | d :: t =>
      by_cases hcd : c = d
      · subst hcd
        rw [splitFuel]
        rw [if_pos (show startsWith [c] (c :: t) = true from by simp [startsWith])]
        rw [show List.drop (List.length [c]) (c :: t) = t from rfl]
        rw [ih t (by simpa using Nat.lt_of_succ_lt_succ h)]
        rw [splitChar, if_pos rfl]
      · rw [splitFuel]
        rw [if_neg (show ¬ startsWith [c] (d :: t) = true from by
          simp [startsWith, hcd])]
        show (match splitFuel f [c] t with
          | [] => [[d]]
          | h :: hs => (d :: h) :: hs) = splitChar c (d :: t)
        rw [ih t (by simpa using Nat.lt_of_succ_lt_succ h)]
        rw [splitChar, if_neg hcd]

theorem jsSplit_single (c : Char) (s : JStr) : jsSplit [c] s = splitChar c s := by
  rw [jsSplit, if_neg (by simp)]
  exact splitFuel_single c (s.length + 1) s (by omega)

theorem joinSep_splitChar (c : Char) (k : JStr) :
    joinSep [c] (splitChar c k) = k := by
  induction k with
  | nil => rfl
  | cons d t ih =>
    rw [splitChar]
    by_cases hcd : c = d
    · rw [if_pos hcd]
      have hne := splitChar_ne_nil c t
      match hsp : splitChar c t with
      | [] => exact absurd hsp hne
      | h :: hs =>
        rw [show joinSep [c] ([] :: h :: hs) = [] ++ [c] ++ joinSep [c] (h :: hs) from rfl]
        rw [hsp] at ih
        rw [ih]
        simp [hcd]
    · rw [if_neg hcd]
      have hne := splitChar_ne_nil c t
      match hsp : splitChar c t with
      | [] => exact absurd hsp hne
      | h :: hs =>
        rw [hsp] at ih
        cases hs with
        | nil =>
          rw [show joinSep [c] [d :: h] = d :: h from rfl]
          rw [show joinSep [c] [h] = h from rfl] at ih
          rw [ih]
        | cons h2 hs2 =>
          rw [show joinSep [c] ((d :: h) :: h2 :: hs2)
              = (d :: h) ++ [c] ++ joinSep [c] (h2 :: hs2) from rfl]
          rw [show joinSep [c] (h :: h2 :: hs2)
              = h ++ [c] ++ joinSep [c] (h2 :: hs2) from rfl] at ih
          rw [show ((d :: h) ++ [c] ++ joinSep [c] (h2 :: hs2) : JStr)
              = d :: (h ++ [c] ++ joinSep [c] (h2 :: hs2)) from by simp]
          rw [ih]

theorem splitChar_append (c : Char) (ns k : JStr) (hc : c ∉ ns) :
    splitChar c (ns ++ c :: k) = ns :: splitChar c k := by
  induction ns with
  | nil =>
    rw [List.nil_append, splitChar, if_pos rfl]
  | cons d ns' ih =>
    have hcd : ¬c = d := fun h => hc (by simp [h])
    rw [List.cons_append, splitChar, if_neg hcd]
    rw [ih (fun h => hc (by simp [h]))]

/-! ### Behaviour of the engine under a cached support probe

With `_supported` cached `true`, `_checkSupport` is pure, so reads do
not touch the world; these lemmas put the primitive operations into
explicit form. -/

theorem checkSupport_cached {lk : Locker} {b : Bool} (h : lk._supported = some b)
    (arg : Option JSVal) (w : World) : lk._checkSupport arg w = (b, lk, w) := by
  unfold Locker._checkSupport
  rw [h]

theorem exists_cached {lk : Locker} (h : lk._supported = some true)
    (key : JSVal) (w : World) :
    lk._exists key w =
      (.ok ((w.getStore lk._driver).hasKey (lk._getPrefixedKey key)), lk, w) := by
  simp only [Locker._exists, checkSupport_cached h]
  rfl

theorem getItem_cached_plain {lk : Locker} (h : lk._supported = some true)
    (key : JSVal) (w : World) (enc : JSVal) (henc : jsTruthy enc = false) :
    lk._getItem key enc w =
      (.ok (_unserialize (match (w.getStore lk._driver).getItem (lk._getPrefixedKey key) with
        | some s => JSVal.str s
        | none => JSVal.null)), lk, w) := by
  simp only [Locker._getItem, checkSupport_cached h, henc, Bool.false_and,
    Bool.false_eq_true, if_false]

theorem removeItem_cached {lk : Locker} (h : lk._supported = some true)
    (key : JSVal) (w : World) :
    lk._removeItem key w =
      (if (w.getStore lk._driver).hasKey (lk._getPrefixedKey key) then
        (.ok true, lk,
          lk._event ("locker.item.forgotten") (.forgotten key)
            (w.setStore lk._driver
              ((w.getStore lk._driver).removeItem (lk._getPrefixedKey key))))
      else (.ok false, lk, w)) := by
  simp only [Locker._removeItem, checkSupport_cached h, exists_cached h]
  by_cases hk : (w.getStore lk._driver).hasKey (lk._getPrefixedKey key)
  · simp only [hk, if_pos]
  · rw [show (w.getStore lk._driver).hasKey (lk._getPrefixedKey key) = false from by
      simpa using hk]
    simp only [Bool.false_eq_true, if_false]

theorem printVal_ne_undef {v : JSVal} (h : v ≠ .undef) :
    printVal v = some (printValT v) := by
  cases v
  · exact absurd rfl h
  all_goals rfl

theorem serialize_ne_undef {v : JSVal} (h : v ≠ .undef) :
    _serialize v = .str (printValT v) := by
  unfold _serialize
  rw [printVal_ne_undef h]

theorem jsLookup_jsInsert_self {β : Type} (k : JStr) (v : β) (l : List (JStr × β)) :
    jsLookup k (jsInsert k v l) = some v := by
  induction l with
  | nil => simp [jsInsert, jsLookup]
  | cons p rest ih =>
    obtain ⟨k', v'⟩ := p
    rw [jsInsert]
    by_cases hk : k' = k
    · rw [if_pos hk, jsLookup, if_pos hk]
    · rw [if_neg hk, jsLookup, if_neg hk]
      exact ih

theorem jsLookup_jsInsert_ne {β : Type} {k k2 : JStr} (hne : k2 ≠ k)
    (v : β) (l : List (JStr × β)) :
    jsLookup k2 (jsInsert k v l) = jsLookup k2 l := by
  have hkk : ¬ k = k2 := fun h => hne h.symm
  induction l with
  | nil => simp [jsInsert, jsLookup, hkk]
  | cons p rest ih =>
    obtain ⟨k', v'⟩ := p
    by_cases hk : k' = k
    · subst hk
      simp [jsInsert, jsLookup, hkk]
    · simp only [jsInsert, if_neg hk, jsLookup]
      by_cases h2 : k' = k2
      · simp [h2]
      · simp [h2, ih]

theorem jsLookup_mem {β : Type} {k : JStr} {v : β} {l : List (JStr × β)}
    (h : jsLookup k l = some v) : (k, v) ∈ l := by
  induction l with
  | nil => simp [jsLookup] at h
  | cons p rest ih =>
    obtain ⟨k', v'⟩ := p
    rw [jsLookup] at h
    by_cases hk : k' = k
    · rw [if_pos hk] at h
      obtain rfl := Option.some.inj h
      subst hk
      simp
    · rw [if_neg hk] at h
      simp [ih h]

theorem mem_jsLookup_isSome {β : Type} {k : JStr} {l : List (JStr × β)}
    (h : k ∈ l.map Prod.fst) : (jsLookup k l).isSome = true := by
  induction l with
  | nil => simp at h
  | cons p rest ih =>
    obtain ⟨k', v'⟩ := p
    rw [jsLookup]
    by_cases hk : k' = k
    · rw [if_pos hk]; rfl
    · rw [if_neg hk]
      simp only [List.map_cons, List.mem_cons] at h
      rcases h with h | h
      · exact absurd h.symm hk
      · exact ih h

theorem World.getStore_setStore_self (w : World) (d : DriverRef) (st : Storage) :
    (w.setStore d st).getStore d = st := by
  cases d <;> rfl

theorem jsToStr_str (s : JStr) : jsToStr (.str s) = s := rfl

theorem jsIsDefined_ne_undef {v : JSVal} (h : v ≠ .undef) : jsIsDefined v = true := by
  cases v
  · exact absurd rfl h
  all_goals rfl

/-- The decoded prior value `_setItem` reads before a write. -/
def storedOldVal (lk : Locker) (w : World) (key : JSVal) : JSVal :=
  _unserialize (match (w.getStore lk._driver).getItem (lk._getPrefixedKey key) with
    | some s => JSVal.str s
    | none => JSVal.null)

/-- The world after the backend write of a put. -/
def putStore (lk : Locker) (w : World) (key : JSVal) (sv : JStr) : World :=
  w.setStore lk._driver
    { w.getStore lk._driver with
      items := jsInsert (lk._getPrefixedKey key) sv (w.getStore lk._driver).items }

theorem setItem_trace (lk : Locker) (w : World) (key v : JSVal)
    (hsup : lk._supported = some true)
    (hok : (w.getStore lk._driver).setFails = none) (hv : v ≠ .undef) :
    lk._setItem key v (.bool false) w =
      (.ok (), lk,
        if jsEquals (storedOldVal lk w key) (.str (printValT v)) then
          lk._event ("locker.item.added") (.added key v)
            (putStore lk w key (printValT v))
        else
          lk._event ("locker.item.updated")
            (.updated key (storedOldVal lk w key) (.str (printValT v)))
            (putStore lk w key (printValT v))) := by
  simp only [Locker._setItem, checkSupport_cached hsup,
    getItem_cached_plain hsup key w JSVal.undef rfl, serialize_ne_undef hv,
    show jsTruthy (.bool false) = false from rfl, Bool.false_and,
    Bool.false_eq_true, if_false, Storage.setItem, hok, jsToStr_str,
    exists_cached hsup, World.getStore_setStore_self, Storage.hasKey,
    Storage.getItem, jsValueOf, jsLookup_jsInsert_self, Option.isSome_some,
    Bool.true_and]
  have hW : (w.setStore lk._driver
        { items := jsInsert (lk._getPrefixedKey key) (printValT v) (w.getStore lk._driver).items,
          setFails := none }) = putStore lk w key (printValT v) := by
    unfold putStore
    show _ = w.setStore lk._driver
      { items := jsInsert (lk._getPrefixedKey key) (printValT v) (w.getStore lk._driver).items,
        setFails := (w.getStore lk._driver).setFails }
    rw [hok]
  have hold : _unserialize (match jsLookup (lk._getPrefixedKey key) (w.getStore lk._driver).items with
      | some s => JSVal.str s
      | none => JSVal.null) = storedOldVal lk w key := rfl
  rw [hW, hold]
  by_cases he : jsEquals (storedOldVal lk w key) (.str (printValT v))
  · simp [he]
  · simp [he]

theorem put_trace (lk : Locker) (w : World) (k : JStr) (v : JSVal)
    (hsup : lk._supported = some true)
    (hok : (w.getStore lk._driver).setFails = none)
    (hk : k ≠ []) (hv : v ≠ .undef) :
    lk.put (.str k) v .undef w =
      (.ok true, lk,
        if jsEquals (storedOldVal lk w (.str k)) (.str (printValT v)) then
          lk._event ("locker.item.added") (.added (.str k) v)
            (putStore lk w (.str k) (printValT v))
        else
          lk._event ("locker.item.updated")
            (.updated (.str k) (storedOldVal lk w (.str k)) (.str (printValT v)))
            (putStore lk w (.str k) (printValT v))) := by
  have ht : jsTruthy (.str k) = true := by
    cases k with
    | nil => exact absurd rfl hk
    | cons a as => rfl
  simp only [Locker.put, ht, Bool.not_true, Bool.false_eq_true, if_false,
    jsValueOf, jsIsDefined_ne_undef hv,
    show jsTruthy JSVal.undef = false from rfl,
    getItem_cached_plain hsup (.str k) w (.bool false) rfl,
    setItem_trace lk w (.str k) v hsup hok hv]

/-! ### Concrete fixtures -/

/-- A locker on the local backend, namespace `locker`, dot separator,
events enabled, crypto slot 0, support probe cached positive. -/
def lk0 : Locker :=
  { _driver := .localRef,
    _namespace := ('l' :: ('o' :: ('c' :: ('k' :: ('e' :: ('r' :: [])))))),
    _eventsEnabled := true, _separator := ('.' :: []), _watchers := [],
    _cryptoKey := 0, _supported := some true }

/-- An empty, working backend. -/
def emptyStore : Storage := { items := [], setFails := none }

/-- A world with empty working backends and one unset crypto slot. -/
def w0 : World :=
  { localS := emptyStore, sessionS := emptyStore, events := [],
    slots := [none], sjclPresent := false, scopes := [] }

/-! ### C10 -/

/-- C10: `put` called with a falsy key — or with a non-object, non-array
key and an omitted (`undefined`) value — returns `false` and leaves the
instance (hence the cached support state), the backend and the event
stream untouched: no support probe, no write, no event. -/
theorem put_noop_on_falsy_or_valueless (lk : Locker) (w : World) (key value : JSVal)
    (h : jsTruthy key = false ∨
      ((∀ fs, key ≠ JSVal.obj fs) ∧ (∀ xs, key ≠ JSVal.arr xs) ∧ value = JSVal.undef)) :
    lk.put key value .undef w = (.ok false, lk, w) := by
  cases h with
  | inl h => simp [Locker.put, h]
  | inr h =>
    obtain ⟨hobj, harr, hval⟩ := h
    subst hval
    by_cases ht : jsTruthy key
    · simp only [Locker.put, ht, Bool.not_true, Bool.false_eq_true, if_false, jsValueOf]
      cases key with
      | obj fs => exact absurd rfl (hobj fs)
      | arr xs => exact absurd rfl (harr xs)
      | undef => rfl
      | null => rfl
      | nan => rfl
      | bool b => rfl
      | num n => rfl
      | str s => rfl
    · simp [Locker.put, ht]

theorem put_noop_on_falsy_or_valueless_witness :
    lk0.put (.str []) (.num 7) .undef w0 = (.ok false, lk0, w0) :=
  put_noop_on_falsy_or_valueless lk0 w0 (.str []) (.num 7) (Or.inl rfl)

/-! ### C8 -/

/-- The crypto-key-slot invariant: unset (`null`) or a non-blank string. -/
def slotOk : Option JStr → Prop
  | none => True
  | some s => s ≠ [] ∧ stripSpaces s ≠ []

theorem getD_set_ne {α : Type} (l : List α) (j : Nat) (v : α) (i : Nat) (d : α)
    (h : i ≠ j) : (l.set j v).getD i d = l.getD i d := by
  induction l generalizing i j with
  | nil => rfl
  | cons a t ih =>
    cases j with
    | zero =>
      cases i with
      | zero => exact absurd rfl h
      | succ i' => rfl
    | succ j' =>
      cases i with
      | zero => rfl
      | succ i' =>
        show (t.set j' v).getD i' d = t.getD i' d
        exact ih j' i' (fun hh => h (by rw [hh]))

theorem getD_set_self {α : Type} (l : List α) (j : Nat) (v d : α) :
    (l.set j v).getD j d = if j < l.length then v else d := by
  induction l generalizing j with
  | nil => simp
  | cons a t ih =>
    cases j with
    | zero => simp
    | succ j' =>
      show (t.set j' v).getD j' d = _
      rw [ih j']
      simp [Nat.succ_lt_succ_iff]

/-- C8: the null-or-non-blank crypto-key-slot invariant is preserved by
`setCryptoKey` (the only operation that writes a slot), and a
`setCryptoKey` whose argument is not a string, is the empty string, or is
a whitespace-only string returns the world unchanged — the slot keeps its
prior value. -/
theorem setCryptoKey_invariant (lk : Locker) (w : World) (key : JSVal) (i : Nat)
    (hw : slotOk (w.slotVal i)) :
    slotOk ((lk.setCryptoKey key w).slotVal i) ∧
    (((∀ s, key ≠ JSVal.str s) ∨ (∃ s, key = .str s ∧ (s = [] ∨ stripSpaces s = []))) →
      lk.setCryptoKey key w = w) := by
  cases key with
  | str s =>
    by_cases hb : s.length = 0 ∨ (stripSpaces s).length = 0
    · constructor
      · simp only [Locker.setCryptoKey, if_pos hb]
        exact hw
      · intro _
        simp only [Locker.setCryptoKey, if_pos hb]
    · constructor
      · simp only [Locker.setCryptoKey, if_neg hb]
        push_neg at hb
        by_cases hij : i = lk._cryptoKey
        · show slotOk ((w.slots.set lk._cryptoKey (some s)).getD i none)
          rw [hij, getD_set_self]
          by_cases hlt : lk._cryptoKey < w.slots.length
          · rw [if_pos hlt]
            exact ⟨fun hnil => hb.1 (by rw [hnil]; rfl),
                   fun hnil => hb.2 (by rw [hnil]; rfl)⟩
          · rw [if_neg hlt]
            trivial
        · show slotOk ((w.slots.set lk._cryptoKey (some s)).getD i none)
          rw [getD_set_ne _ _ _ _ _ hij]
          exact hw
      · intro hrej
        cases hrej with
        | inl hns => exact absurd rfl (hns s)
        | inr hbl =>
          obtain ⟨s', hs', hblank⟩ := hbl
          cases hs'
          exfalso
          apply hb
          cases hblank with
          | inl h => exact Or.inl (by rw [h]; rfl)
          | inr h => exact Or.inr (by rw [h]; rfl)
  | undef => exact ⟨hw, fun _ => rfl⟩
  | null => exact ⟨hw, fun _ => rfl⟩
  | nan => exact ⟨hw, fun _ => rfl⟩
  | bool b => exact ⟨hw, fun _ => rfl⟩
  | num n => exact ⟨hw, fun _ => rfl⟩
  | arr xs => exact ⟨hw, fun _ => rfl⟩
  | obj fs => exact ⟨hw, fun _ => rfl⟩

theorem setCryptoKey_invariant_witness :
    slotOk ((lk0.setCryptoKey (.str (' ' :: [])) w0).slotVal 0) ∧
    (((∀ s, JSVal.str (' ' :: []) ≠ JSVal.str s) ∨
      (∃ s, JSVal.str (' ' :: []) = .str s ∧ (s = [] ∨ stripSpaces s = []))) →
      lk0.setCryptoKey (.str (' ' :: [])) w0 = w0) :=
  setCryptoKey_invariant lk0 w0 (.str (' ' :: [])) 0 trivial

/-! ### C6 -/

theorem getD_append_left {α : Type} (l l' : List α) (i : Nat) (d : α)
    (h : i < l.length) : (l ++ l').getD i d = l.getD i d := by
  induction l generalizing i with
  | nil => exact absurd h (Nat.not_lt_zero i)
  | cons a t ih =>
    cases i with
    | zero => rfl
    | succ i' => exact ih i' (Nat.lt_of_succ_lt_succ h)

theorem getD_concat_self {α : Type} (l : List α) (x : α) (d : α) :
    (l ++ [x]).getD l.length d = x := by
  induction l with
  | nil => rfl
  | cons a t ih => exact ih

theorem setCryptoKey_slotVal_other (lk : Locker) (w : World) (key : JSVal) (i : Nat)
    (hne : i ≠ lk._cryptoKey) :
    (lk.setCryptoKey key w).slotVal i = w.slotVal i := by
  cases key with
  | str s =>
    by_cases hb : s.length = 0 ∨ (stripSpaces s).length = 0
    · simp only [Locker.setCryptoKey, if_pos hb]
    · simp only [Locker.setCryptoKey, if_neg hb]
      exact getD_set_ne _ _ _ _ _ hne
  | undef => rfl
  | null => rfl
  | nan => rfl
  | bool b => rfl
  | num n => rfl
  | arr xs => rfl
  | obj fs => rfl

/-- C6: a successful `instance` call creates a child whose crypto-key slot
is fresh (index `w.slots.length`) and holds a one-time copy of the
parent's current value; afterwards a `setCryptoKey` on the parent never
changes the child's slot.  `driver` and `namespace` are this very
`instance` call at their specific arguments, so they inherit the
behaviour. -/
theorem instance_copies_cryptoKey (lk : Locker) (df : Defaults) (driverArg : JSVal)
    (nsArg : JStr) (w : World) (r : DriverRef)
    (hres : _resolveDriver driverArg = .ok r)
    (hok : slotOk (w.slotVal lk._cryptoKey))
    (hlt : lk._cryptoKey < w.slots.length) :
    (∃ child w1, lk.instance df driverArg nsArg w = (.ok child, lk, w1) ∧
      child._cryptoKey = w.slots.length ∧
      w1.slotVal child._cryptoKey = w.slotVal lk._cryptoKey ∧
      (∀ key : JSVal, (lk.setCryptoKey key w1).slotVal child._cryptoKey
        = w1.slotVal child._cryptoKey)) ∧
      lk.driver df driverArg w = lk.instance df driverArg lk._namespace w ∧
      (∀ ns2, lk.namespaceOp df ns2 w =
        lk.instance df (match _deriveDriver lk._driver with
          | some id => JSVal.str id
          | none => JSVal.undef) ns2 w) := by
  have hne : w.slots.length ≠ lk._cryptoKey := fun h => absurd h.symm (Nat.ne_of_lt hlt)
  have hsame : ({ w with slots := w.slots ++ [none] } : World).slotVal lk._cryptoKey
      = w.slotVal lk._cryptoKey := getD_append_left _ _ _ _ hlt
  refine ⟨?_, rfl, fun ns2 => rfl⟩
  unfold Locker.instance Locker.mkNew
  rw [hres]
  refine ⟨_, _, rfl, rfl, ?_, ?_⟩
  · cases hv : w.slotVal lk._cryptoKey with
    | none =>
      rw [hsame, hv]
      show ({ w with slots := w.slots ++ [none] } : World).slotVal (w.slots.length) = none
      exact getD_concat_self _ _ _
    | some s =>
      rw [hsame, hv]
      rw [hv] at hok
      have hb : ¬ (s.length = 0 ∨ (stripSpaces s).length = 0) := by
        intro hcon
        cases hcon with
        | inl h => exact hok.1 (List.length_eq_zero.mp h)
        | inr h => exact hok.2 (List.length_eq_zero.mp h)
      show (Locker.setCryptoKey _ (.str s) _).slotVal (w.slots.length) = some s
      simp only [Locker.setCryptoKey, if_neg hb]
      show ((w.slots ++ [none]).set w.slots.length (some s)).getD w.slots.length none
        = some s
      rw [getD_set_self]
      rw [if_pos (by simp)]
  · intro key
    cases hv : w.slotVal lk._cryptoKey with
    | none =>
      rw [hsame, hv]
      exact setCryptoKey_slotVal_other lk _ key _ hne
    | some s =>
      rw [hsame, hv]
      exact setCryptoKey_slotVal_other lk _ key _ hne

/-- The driver-name argument `'local'` as a value. -/
def localArg : JSVal := .str ('l' :: ('o' :: ('c' :: ('a' :: ('l' :: [])))))

theorem instance_copies_cryptoKey_witness :
    (∃ child w1, lk0.instance initialDefaults localArg ('n' :: ('s' :: [])) w0
        = (.ok child, lk0, w1) ∧
      child._cryptoKey = w0.slots.length ∧
      w1.slotVal child._cryptoKey = w0.slotVal lk0._cryptoKey ∧
      (∀ key : JSVal, (lk0.setCryptoKey key w1).slotVal child._cryptoKey
        = w1.slotVal child._cryptoKey)) ∧
      lk0.driver initialDefaults localArg w0
        = lk0.instance initialDefaults localArg lk0._namespace w0 ∧
      (∀ ns2, lk0.namespaceOp initialDefaults ns2 w0 =
        lk0.instance initialDefaults (match _deriveDriver lk0._driver with
          | some id => JSVal.str id
          | none => JSVal.undef) ns2 w0) :=
  instance_copies_cryptoKey lk0 initialDefaults localArg ('n' :: ('s' :: [])) w0
    .localRef rfl trivial (by decide)

/-! ### C7 -/

theorem getScope_setScope_self (w : World) (i : Nat) (sc : Scope)
    (h : i < w.scopes.length) : (w.setScope i sc).getScope i = sc := by
  show (w.scopes.set i sc).getD i _ = sc
  rw [getD_set_self]
  exact if_pos h

theorem getScope_setScope_other (w : World) (i j : Nat) (sc : Scope)
    (h : i ≠ j) : (w.setScope j sc).getScope i = w.getScope i := by
  show (w.scopes.set j sc).getD i _ = w.scopes.getD i _
  exact getD_set_ne _ _ _ _ _ h

/-- Whether the subscription a disposer refers to is still live. -/
def subActive (w : World) (d : Nat × Nat) : Bool :=
  match (w.getScope d.1).subs.get? d.2 with
  | some sub => sub.active
  | none => false

/-- Inserting a key either leaves the key list unchanged (overwrite) or
appends the new, absent key. -/
theorem keys_jsInsert {β : Type} (k : JStr) (v : β) (l : List (JStr × β)) :
    ((jsLookup k l).isSome = true ∧ (jsInsert k v l).map Prod.fst = l.map Prod.fst) ∨
    (jsLookup k l = none ∧ (jsInsert k v l).map Prod.fst = l.map Prod.fst ++ [k]) := by
  induction l with
  | nil => exact Or.inr ⟨rfl, rfl⟩
  | cons p rest ih =>
    obtain ⟨k2, v2⟩ := p
    by_cases hk : k2 = k
    · left
      constructor
      · simp [jsLookup, hk]
      · simp [jsInsert, hk]
    · cases ih with
      | inl h =>
        left
        constructor
        · simpa [jsLookup, hk] using h.1
        · simp [jsInsert, hk, h.2]
      | inr h =>
        right
        constructor
        · simpa [jsLookup, hk] using h.1
        · simp [jsInsert, hk, h.2]

theorem jsInsert_keys_nodup {β : Type} (k : JStr) (v : β) (l : List (JStr × β))
    (h : (l.map Prod.fst).Nodup) : ((jsInsert k v l).map Prod.fst).Nodup := by
  cases keys_jsInsert k v l with
  | inl h2 =>
    rw [h2.2]
    exact h
  | inr h2 =>
    rw [h2.2]
    have hk : k ∉ l.map Prod.fst := fun hm => by
      have := mem_jsLookup_isSome hm
      rw [h2.1] at this
      exact absurd this (by simp)
    simp [List.nodup_append, h, hk]

theorem get?_append_of_some {α : Type} (l l' : List α) (n : Nat) (a : α)
    (h : l.get? n = some a) : (l ++ l').get? n = some a := by
  induction l generalizing n with
  | nil => exact absurd h (by simp)
  | cons x t ih =>
    cases n with
    | zero => exact h
    | succ n' => exact ih n' h

/-- The subscription record a seedless `bind` appends. -/
def bindSub (key : JSVal) (deep : Bool) : WatchSub :=
  { exp := jsToStr key, key := key, encrypted := false, deep := deep,
    active := true }

/-- Appending a subscription to a scope keeps every previously live
subscription live. -/
theorem subActive_append (w : World) (i : Nat) (nsub : WatchSub) (d : Nat × Nat)
    (hsc : i < w.scopes.length) (hact : subActive w d = true) :
    subActive (w.setScope i
      { w.getScope i with subs := (w.getScope i).subs ++ [nsub] }) d = true := by
  unfold subActive at hact ⊢
  by_cases hd : d.1 = i
  · rw [hd] at hact ⊢
    rw [getScope_setScope_self w i _ hsc]
    show (match ((w.getScope i).subs ++ [nsub]).get? d.2 with
      | some sub => sub.active
      | none => false) = true
    cases hq : (w.getScope i).subs.get? d.2 with
    | none =>
      rw [hq] at hact
      exact absurd hact (by simp)
    | some sub =>
      rw [hq] at hact
      rw [get?_append_of_some _ _ _ _ hq]
      exact hact
  · rw [getScope_setScope_other w d.1 i _ hd]
    exact hact

/-- The state after a seedless `bind`: one subscription appended to the
scope, the registry entry overwritten with its disposer. -/
theorem bind_trace (lk : Locker) (scIdx : Nat) (key dflt : JSVal) (w : World)
    (hsc : scIdx < w.scopes.length)
    (hprop : jsIsUndefined
      ((jsLookup (jsToStr key) (w.getScope scIdx).props).getD .undef) = false) :
    lk.bind scIdx key dflt .undef w =
      (.ok (),
       { lk with
          _watchers := jsInsert (jsToStr key ++ printInt (w.getScope scIdx).sid) (scIdx, (w.getScope scIdx).subs.length) lk._watchers },
       w.setScope scIdx
         { w.getScope scIdx with
            subs := (w.getScope scIdx).subs ++ [bindSub key (jsIsObject ((jsLookup (jsToStr key) (w.getScope scIdx).props).getD .undef))] }) := by
  simp only [Locker.bind, show jsTruthy JSVal.undef = false from rfl,
    Bool.false_eq_true, if_false, Scope.watchAdd,
    getScope_setScope_self w scIdx _ hsc]
  rw [if_neg (by rw [hprop]; exact Bool.false_ne_true)]
  rfl

/-- C7: on a scope whose bound property is already defined, a `bind`
whose watcher id is already tracked overwrites the registry entry with
the freshly created subscription's disposer, keeps the watcher ids
duplicate-free, and never invokes the previously tracked disposer: the
subscription that disposer refers to stays active. -/
theorem bind_overwrites_without_dispose (lk : Locker) (scIdx : Nat) (key dflt : JSVal)
    (w : World) (d0 : Nat × Nat)
    (hsc : scIdx < w.scopes.length)
    (hprop : jsIsUndefined
      ((jsLookup (jsToStr key) (w.getScope scIdx).props).getD .undef) = false)
    (hnd : (lk._watchers.map Prod.fst).Nodup)
    (_htr : jsLookup (jsToStr key ++ printInt (w.getScope scIdx).sid) lk._watchers
      = some d0)
    (hact : subActive w d0 = true) :
    ∃ lk1 w1, lk.bind scIdx key dflt .undef w = (.ok (), lk1, w1) ∧
      jsLookup (jsToStr key ++ printInt (w.getScope scIdx).sid) lk1._watchers
        = some (scIdx, (w.getScope scIdx).subs.length) ∧
      (lk1._watchers.map Prod.fst).Nodup ∧
      subActive w1 d0 = true := by
  refine ⟨_, _, bind_trace lk scIdx key dflt w hsc hprop, ?_, ?_, ?_⟩
  · exact jsLookup_jsInsert_self _ _ _
  · exact jsInsert_keys_nodup _ _ _ hnd
  · exact subActive_append w scIdx _ d0 hsc hact

/-- The fixture scope for the binding claims: `$id` 1, property `k`
already set, one live subscription. -/
def sc0 : Scope where
  sid := 1
  props := [(('k' :: []), .num 5)]
  subs := [{ exp := ('k' :: []), key := .str ('k' :: []), encrypted := false,
             deep := false, active := true }]

/-- A world holding the fixture scope. -/
def wSc : World :=
  { localS := emptyStore, sessionS := emptyStore, events := [],
    slots := [none], sjclPresent := false, scopes := [sc0] }

/-- The fixture locker already tracking the watcher id `k1`. -/
def lkB : Locker :=
  { lk0 with _watchers := [(('k' :: ('1' :: [])), (0, 0))] }

theorem bind_overwrites_without_dispose_witness :
    ∃ lk1 w1, lkB.bind 0 (.str ('k' :: [])) .undef .undef wSc = (.ok (), lk1, w1) ∧
      jsLookup (jsToStr (.str ('k' :: [])) ++ printInt (wSc.getScope 0).sid)
          lk1._watchers
        = some (0, (wSc.getScope 0).subs.length) ∧
      (lk1._watchers.map Prod.fst).Nodup ∧
      subActive w1 (0, 0) = true :=
  bind_overwrites_without_dispose lkB 0 (.str ('k' :: [])) .undef wSc (0, 0)
    (by decide) rfl (by decide) rfl rfl

/-! ### C3 -/

theorem has_cached {lk : Locker} (h : lk._supported = some true)
    (key : JSVal) (w : World) :
    lk.has key w =
      (.ok ((w.getStore lk._driver).hasKey (lk._getPrefixedKey key)), lk, w) :=
  exists_cached h key w

/-- `getMany` under a cached positive probe: a pure fold that inserts
every existing key's decoded value and skips absent keys. -/
theorem getMany_cached {lk : Locker} (h : lk._supported = some true)
    (w : World) (ks : List JStr) (items : List (JStr × JSVal)) :
    ∃ res, lk.getMany (ks.map JSVal.str) (.bool false) items w = (.ok res, lk, w) ∧
      ∀ s : JStr, jsLookup s res =
        (if s ∈ ks ∧ (w.getStore lk._driver).hasKey (lk._getPrefixedKey (.str s)) = true
         then some (storedOldVal lk w (.str s))
         else jsLookup s items) := by
  induction ks generalizing items with
  | nil =>
    refine ⟨items, rfl, fun s => ?_⟩
    simp
  | cons k rest ih =>
    cases hk : (w.getStore lk._driver).hasKey (lk._getPrefixedKey (.str k)) with
    | true =>
      obtain ⟨res, heq, hprop⟩ := ih (jsInsert k (storedOldVal lk w (.str k)) items)
      refine ⟨res, ?_, fun s => ?_⟩
      · simp only [List.map_cons, Locker.getMany, Locker.has, exists_cached h, hk,
          getItem_cached_plain h (JSVal.str k) w (.bool false) rfl, jsToStr_str]
        exact heq
      rw [hprop s]
      by_cases hs : s = k
      · subst hs
        by_cases hmem : s ∈ rest
        · simp [hmem, hk]
        · simp [hmem, hk, jsLookup_jsInsert_self]
      · rw [jsLookup_jsInsert_ne hs]
        by_cases hmem : s ∈ rest
        · simp [hmem, hs]
        · simp [hmem, hs]
    | false =>
      obtain ⟨res, heq, hprop⟩ := ih items
      refine ⟨res, ?_, fun s => ?_⟩
      · simp only [List.map_cons, Locker.getMany, Locker.has, exists_cached h, hk]
        exact heq
      rw [hprop s]
      by_cases hs : s = k
      · subst hs
        simp [hk]
      · by_cases hmem : s ∈ rest
        · simp [hmem, hs]
        · simp [hmem, hs]

/-- C3: with the key absent from the backend, a one-argument `get`
returns the not-found sentinel `undefined`, while the two- and
three-argument forms return the supplied default — even an explicitly
`undefined` one, since the decision is the call's arity, not the
default's value; and `get` over a sequence of keys returns a mapping in
which every absent key is omitted (never defaulted) and every present,
requested key is mapped to its decoded stored value. -/
theorem get_arity_and_sequence (lk : Locker) (w : World) (k : JStr) (d e : JSVal)
    (hsup : lk._supported = some true)
    (habs : (w.getStore lk._driver).hasKey (lk._getPrefixedKey (.str k)) = false) :
    lk.getArgs [.str k] w = (.ok .undef, lk, w) ∧
    lk.getArgs [.str k, d] w = (.ok d, lk, w) ∧
    lk.getArgs [.str k, d, e] w = (.ok d, lk, w) ∧
    (∀ ks : List JStr, ∃ items,
      lk.getArgs [.arr (ks.map JSVal.str)] w = (.ok (.obj items), lk, w) ∧
      ∀ s : JStr,
        ((w.getStore lk._driver).hasKey (lk._getPrefixedKey (.str s)) = false →
          jsLookup s items = none) ∧
        (s ∈ ks →
          (w.getStore lk._driver).hasKey (lk._getPrefixedKey (.str s)) = true →
          jsLookup s items = some (storedOldVal lk w (.str s)))) := by
  refine ⟨?_, ?_, ?_, ?_⟩
  · simp [Locker.getArgs, Locker.has, exists_cached hsup, habs]
  · simp [Locker.getArgs, Locker.has, exists_cached hsup, habs]
  · simp [Locker.getArgs, Locker.has, exists_cached hsup, habs]
  · intro ks
    obtain ⟨res, heq, hprop⟩ := getMany_cached hsup w ks []
    refine ⟨res, ?_, fun s => ⟨fun hab => ?_, fun hmem hpres => ?_⟩⟩
    · simp only [Locker.getArgs]
      simp only [show ([JSVal.arr (List.map JSVal.str ks)].getD 0 JSVal.undef)
          = JSVal.arr (List.map JSVal.str ks) from rfl,
        show (JSVal.bool (jsTruthy ([JSVal.arr (List.map JSVal.str ks)].getD 2
          JSVal.undef))) = JSVal.bool false from rfl]
      rw [heq]
    · rw [hprop s]
      simp [hab, jsLookup]
    · rw [hprop s]
      simp [hmem, hpres]

/-- A backend holding one namespaced entry `locker.b = "5"`. -/
def wB : World :=
  { w0 with localS :=
    { items := [(('l' :: ('o' :: ('c' :: ('k' :: ('e' :: ('r' :: ('.' :: ('b' :: [])))))))),
                 ('5' :: []))],
      setFails := none } }

theorem get_arity_and_sequence_witness :
    lk0.getArgs [.str ('a' :: [])] wB = (.ok .undef, lk0, wB) :=
  (get_arity_and_sequence lk0 wB ('a' :: []) .undef .undef rfl rfl).1

/-! ### C2 -/

theorem exists_unsupported {lk : Locker} (h : lk._supported = some false)
    (key : JSVal) (w : World) :
    lk._exists key w = (.error (errOf unsupportedMsg), lk, w) := by
  simp only [Locker._exists, checkSupport_cached h]

theorem getItem_unsupported {lk : Locker} (h : lk._supported = some false)
    (key enc : JSVal) (w : World) :
    lk._getItem key enc w = (.error (errOf unsupportedMsg), lk, w) := by
  simp only [Locker._getItem, checkSupport_cached h]

theorem removeItem_unsupported {lk : Locker} (h : lk._supported = some false)
    (key : JSVal) (w : World) :
    lk._removeItem key w = (.error (errOf unsupportedMsg), lk, w) := by
  simp only [Locker._removeItem, checkSupport_cached h]

theorem getArgs_unsupported {lk : Locker} (h : lk._supported = some false)
    (k : JStr) (d e : JSVal) (w : World) :
    lk.getArgs [.str k, d, e] w = (.error (errOf unsupportedMsg), lk, w) := by
  simp [Locker.getArgs, Locker.has, exists_unsupported h]

/-- The unsupported-backend fixture: a fresh locker (probe not yet run)
whose local backend rejects every write. -/
def lkU : Locker := { lk0 with _supported := none }

/-- A world whose local backend holds `x = y` but throws on `setItem`. -/
def wU : World :=
  { w0 with localS := { items := [(('x' :: []), ('y' :: []))],
                        setFails := some "SecurityError" } }

/-- C2, counterexample: on a backend whose support probe is negative,
`empty()` does not fail with the unsupported-backend error — it succeeds
and clears the backend, erasing the stored entry.  So not every core
operation asserts `supported()` before mutating the backend. -/
theorem empty_skips_support_check :
    (lkU.supported none wU).1 = false ∧
    (lkU.empty wU).1 = .ok () ∧
    ((lkU.empty wU).2.2.getStore .localRef).items = [] ∧
    (wU.getStore .localRef).items ≠ [] := by
  refine ⟨rfl, rfl, rfl, ?_⟩
  decide

/-- C2, amended: with the cached support probe negative, `put`, `get`,
`has`, `forget`, `pull`, `all`, `clean` and `count` (the last three on a
non-empty backend, whose first enumerated key triggers the probe) all
fail with the unsupported-backend error and leave the world unchanged —
but `empty` performs no support check at all: it succeeds and clears the
backend unconditionally. -/
theorem core_ops_unsupported (lk : Locker) (w : World)
    (k : JStr) (v d e : JSVal) (pk sv : JStr) (rest : List (JStr × JStr))
    (hsupf : lk._supported = some false)
    (hk : k ≠ []) (hv : v ≠ .undef)
    (hstore : (w.getStore lk._driver).items = (pk, sv) :: rest) :
    lk.put (.str k) v .undef w = (.error (errOf unsupportedMsg), lk, w) ∧
    lk.getArgs [.str k, d, e] w = (.error (errOf unsupportedMsg), lk, w) ∧
    lk.has (.str k) w = (.error (errOf unsupportedMsg), lk, w) ∧
    lk.forget (.str k) w = (.error (errOf unsupportedMsg), lk, w) ∧
    lk.pull (.str k) d e w = (.error (errOf unsupportedMsg), lk, w) ∧
    lk.all w = (.error (errOf unsupportedMsg), lk, w) ∧
    lk.clean w = (.error (errOf unsupportedMsg), lk, w) ∧
    lk.count w = (.error (errOf unsupportedMsg), lk, w) ∧
    lk.empty w = (.ok (), lk, w.setStore lk._driver ((w.getStore lk._driver).clear)) ∧
    ((w.setStore lk._driver ((w.getStore lk._driver).clear)).getStore lk._driver).items
      = [] := by
  have ht : jsTruthy (.str k) = true := by
    cases k with
    | nil => exact absurd rfl hk
    | cons a as => rfl
  have hall : lk.all w = (.error (errOf unsupportedMsg), lk, w) := by
    unfold Locker.all
    rw [hstore]
    simp only [Locker.allLoop, Locker.has, exists_unsupported hsupf]
  refine ⟨?_, getArgs_unsupported hsupf k d e w, exists_unsupported hsupf _ w, ?_,
    ?_, hall, ?_, ?_, rfl, ?_⟩
  · simp only [Locker.put, ht, Bool.not_true, Bool.false_eq_true, if_false,
      jsValueOf, jsIsDefined_ne_undef hv, getItem_unsupported hsupf]
  · simp only [Locker.forget, jsValueOf, removeItem_unsupported hsupf]
  · simp only [Locker.pull, getArgs_unsupported hsupf]
  · simp only [Locker.clean, hall]
  · simp only [Locker.count, hall]
  · rw [World.getStore_setStore_self]
    rfl

theorem core_ops_unsupported_witness :
    (let lkF : Locker := { lk0 with _supported := some false };
     lkF.put (.str ('a' :: [])) (.num 1) .undef wU
       = (.error (errOf unsupportedMsg), lkF, wU) ∧
     lkF.empty wU
       = (.ok (), lkF, wU.setStore lkF._driver ((wU.getStore lkF._driver).clear))) :=
  ⟨(core_ops_unsupported { lk0 with _supported := some false } wU ('a' :: [])
      (.num 1) .undef .undef ('x' :: []) ('y' :: []) [] rfl (by decide)
      (fun h => JSVal.noConfusion h) rfl).1,
   (core_ops_unsupported { lk0 with _supported := some false } wU ('a' :: [])
      (.num 1) .undef .undef ('x' :: []) ('y' :: []) [] rfl (by decide)
      (fun h => JSVal.noConfusion h) rfl).2.2.2.2.2.2.2.2.1⟩

/-! ### C1 -/

theorem escapeChar_length_pos (c : Char) : 1 ≤ (escapeChar c).length := by
  unfold escapeChar
  split_ifs <;> simp

theorem escapeStr_length_ge (s : JStr) : s.length ≤ (escapeStr s).length := by
  induction s with
  | nil => exact Nat.le_refl 0
  | cons c rest ih =>
    show (c :: rest).length ≤ (escapeChar c ++ escapeStr rest).length
    rw [List.length_append, List.length_cons]
    have := escapeChar_length_pos c
    omega

theorem str_ne_printJStr (s : JStr) : s ≠ printJStr s := by
  intro h
  have hlen := congrArg List.length h
  rw [printJStr, List.length_cons, List.length_append, List.length_cons] at hlen
  have := escapeStr_length_ge s
  omega

/-- No JSON-safe value is `angular.equals`-equal to the string holding
its own serialization — the comparison `_setItem` performs. -/
theorem safe_not_equals_serialized {v : JSVal} (hs : JsonSafe v) :
    jsEquals v (.str (printValT v)) = false := by
  cases hs with
  | null => rfl
  | bool b => cases b <;> rfl
  | num n => rfl
  | str s =>
    show (s == printJStr s) = false
    exact beq_eq_false_iff_ne.mpr (str_ne_printJStr s)
  | arr xs _ => rfl
  | obj fs _ _ => rfl

theorem events_setStore (w : World) (d : DriverRef) (st : Storage) :
    (w.setStore d st).events = w.events := by
  cases d <;> rfl

theorem events_putStore (lk : Locker) (w : World) (key : JSVal) (sv : JStr) :
    (putStore lk w key sv).events = w.events := by
  unfold putStore
  exact events_setStore _ _ _

/-- C1, counterexample: on a fresh backend, the first-ever
`put('a', 7)` emits `locker.item.updated` — not `locker.item.added` —
and an immediately repeated `put('a', 7)` of the equal value emits a
second `locker.item.updated` instead of staying silent. -/
theorem put_event_counterexample :
    ((lk0.put (.str ('a' :: [])) (.num 7) .undef w0).2.2.events.map Event.name)
      = ["locker.item.updated"] ∧
    (match lk0.put (.str ('a' :: [])) (.num 7) .undef w0 with
     | (_, lk1, w1) =>
        ((lk1.put (.str ('a' :: [])) (.num 7) .undef w1).2.2.events.map Event.name)
          = ["locker.item.updated", "locker.item.updated"]) :=
  ⟨rfl, rfl⟩

/-- C1, amended: a successful unencrypted `put` of a defined value under
a working, support-cached backend emits exactly one event.  The event
name is decided by `angular.equals` between the *decoded* prior value
and the *serialized string* of the new value: `added` when they compare
equal, `updated` otherwise.  Because a decoded value never equals its
own serialization string, the comparison is false both on a first-ever
write (prior value `null`) and on an immediate re-put of the same
JSON-safe value — both emit `locker.item.updated`, and no put of a
JSON-safe value ever emits `locker.item.added` over its own prior
copy. -/
theorem put_event_discipline (lk : Locker) (w : World) (k : JStr) (v : JSVal)
    (hsup : lk._supported = some true)
    (hok : (w.getStore lk._driver).setFails = none)
    (hk : k ≠ []) (hv : v ≠ .undef) (hsafe : JsonSafe v) :
    ∃ w1, lk.put (.str k) v .undef w = (.ok true, lk, w1) ∧
      (lk._eventsEnabled = true →
        w1.events.map Event.name
          = (if jsEquals (storedOldVal lk w (.str k)) (.str (printValT v))
             then "locker.item.added" else "locker.item.updated")
              :: w.events.map Event.name) ∧
      ((w.getStore lk._driver).hasKey (lk._getPrefixedKey (.str k)) = false →
        jsEquals (storedOldVal lk w (.str k)) (.str (printValT v)) = false) ∧
      ((w.getStore lk._driver).getItem (lk._getPrefixedKey (.str k))
          = some (printValT v) →
        jsEquals (storedOldVal lk w (.str k)) (.str (printValT v)) = false) := by
  refine ⟨_, put_trace lk w k v hsup hok hk hv, ?_, ?_, ?_⟩
  · intro hev
    by_cases he : jsEquals (storedOldVal lk w (.str k)) (.str (printValT v))
    · simp [he, Locker._event, hev, World.emit, events_putStore]
    · simp [he, Locker._event, hev, World.emit, events_putStore]
  · intro habs
    have hnone : (w.getStore lk._driver).getItem (lk._getPrefixedKey (.str k))
        = none := by
      unfold Storage.hasKey at habs
      cases hq : (w.getStore lk._driver).getItem (lk._getPrefixedKey (.str k)) with
      | none => rfl
      | some s =>
        rw [hq] at habs
        exact absurd habs (by simp)
    rw [show storedOldVal lk w (.str k) = JSVal.null from by
      unfold storedOldVal
      rw [hnone]
      rfl]
    rfl
  · intro hsome
    rw [show storedOldVal lk w (.str k) = v from by
      unfold storedOldVal
      rw [hsome]
      show _unserialize (.str (printValT v)) = v
      rw [← serialize_ne_undef hv]
      exact unserialize_serialize hsafe]
    exact safe_not_equals_serialized hsafe

theorem put_event_discipline_witness :
    ∃ w1, lk0.put (.str ('a' :: [])) (.num 7) .undef w0 = (.ok true, lk0, w1) ∧
      (lk0._eventsEnabled = true →
        w1.events.map Event.name
          = (if jsEquals (storedOldVal lk0 w0 (.str ('a' :: [])))
                  (.str (printValT (.num 7)))
             then "locker.item.added" else "locker.item.updated")
              :: w0.events.map Event.name) ∧
      ((w0.getStore lk0._driver).hasKey (lk0._getPrefixedKey (.str ('a' :: []))) = false →
        jsEquals (storedOldVal lk0 w0 (.str ('a' :: [])))
          (.str (printValT (.num 7))) = false) ∧
      ((w0.getStore lk0._driver).getItem (lk0._getPrefixedKey (.str ('a' :: [])))
          = some (printValT (.num 7)) →
        jsEquals (storedOldVal lk0 w0 (.str ('a' :: [])))
          (.str (printValT (.num 7))) = false) :=
  put_event_discipline lk0 w0 ('a' :: []) (.num 7) rfl rfl (by decide)
    (fun h => JSVal.noConfusion h) (JsonSafe.num 7)

/-! ### C4 -/

theorem getStore_event (lk : Locker) (n : String) (p : EvPayload) (w : World)
    (d : DriverRef) : (lk._event n p w).getStore d = w.getStore d := by
  unfold Locker._event
  by_cases hev : lk._eventsEnabled
  · rw [if_neg (by simp [hev])]
    cases d <;> rfl
  · rw [if_pos (by simp [hev])]

theorem getArgs_single_present {lk : Locker} (hsup : lk._supported = some true)
    (k : JStr) (w : World) (sv : JStr)
    (hget : (w.getStore lk._driver).getItem (lk._getPrefixedKey (.str k)) = some sv) :
    lk.getArgs [.str k] w = (.ok (_unserialize (.str sv)), lk, w) := by
  simp [Locker.getArgs, Locker.has, exists_cached hsup, Storage.hasKey, hget,
    getItem_cached_plain hsup (JSVal.str k) w (JSVal.bool (jsTruthy JSVal.undef)) rfl]

/-- C4: after a successful `put(k, v)` of a JSON-safe value on a working,
support-cached backend, a `get(k)` on the same instance returns exactly
`v` (so in particular a value deep-equal to `v`), leaving the world
unchanged. -/
theorem get_after_put_roundtrip (lk : Locker) (w : World) (k : JStr) (v : JSVal)
    (hsup : lk._supported = some true)
    (hok : (w.getStore lk._driver).setFails = none)
    (hk : k ≠ []) (hsafe : JsonSafe v) :
    ∃ w1, lk.put (.str k) v .undef w = (.ok true, lk, w1) ∧
      lk.getArgs [.str k] w1 = (.ok v, lk, w1) := by
  have hv : v ≠ JSVal.undef := by
    intro h
    subst h
    nomatch hsafe
  have hro : _unserialize (JSVal.str (printValT v)) = v := by
    rw [← serialize_ne_undef hv]
    exact unserialize_serialize hsafe
  refine ⟨_, put_trace lk w k v hsup hok hk hv, ?_⟩
  have hst : (putStore lk w (.str k) (printValT v)).getStore lk._driver
      = { w.getStore lk._driver with
          items := jsInsert (lk._getPrefixedKey (.str k)) (printValT v)
            (w.getStore lk._driver).items } := by
    unfold putStore
    exact World.getStore_setStore_self _ _ _
  by_cases he : jsEquals (storedOldVal lk w (.str k)) (.str (printValT v)) = true
  · rw [if_pos he]
    have hget1 : ((lk._event ("locker.item.added") (.added (.str k) v)
        (putStore lk w (.str k) (printValT v))).getStore lk._driver).getItem
        (lk._getPrefixedKey (.str k)) = some (printValT v) := by
      rw [getStore_event, hst]
      exact jsLookup_jsInsert_self _ _ _
    rw [getArgs_single_present hsup k _ (printValT v) hget1, hro]
  · rw [if_neg he]
    have hget1 : ((lk._event ("locker.item.updated")
        (.updated (.str k) (storedOldVal lk w (.str k)) (.str (printValT v)))
        (putStore lk w (.str k) (printValT v))).getStore lk._driver).getItem
        (lk._getPrefixedKey (.str k)) = some (printValT v) := by
      rw [getStore_event, hst]
      exact jsLookup_jsInsert_self _ _ _
    rw [getArgs_single_present hsup k _ (printValT v) hget1, hro]

theorem get_after_put_roundtrip_witness :
    ∃ w1, lk0.put (.str ('a' :: [])) (.num 7) .undef w0 = (.ok true, lk0, w1) ∧
      lk0.getArgs [.str ('a' :: [])] w1 = (.ok (.num 7), lk0, w1) :=
  get_after_put_roundtrip lk0 w0 ('a' :: []) (.num 7) rfl rfl (by decide)
    (JsonSafe.num 7)

/-! ### C5 -/

theorem getPrefixedKey_str (lk : Locker) (c : Char) (s : JStr)
    (hsep : lk._separator = [c]) (hns : lk._namespace ≠ []) :
    lk._getPrefixedKey (.str s) = lk._namespace ++ c :: s := by
  unfold Locker._getPrefixedKey
  rw [if_neg hns, hsep, jsToStr_str]
  simp

/-- The logical key `all` derives from a physical key of the current
namespace is the bare key. -/
theorem allKey_owned (lk : Locker) (c : Char) (s : JStr)
    (hsep : lk._separator = [c]) (hc : c ∉ lk._namespace) :
    allKey lk (lk._namespace ++ c :: s) = s := by
  unfold allKey
  rw [hsep, jsSplit_single, splitChar_append c _ s hc]
  rw [if_pos ⟨by
      have := List.length_pos.mpr (splitChar_ne_nil c s)
      simp only [List.length_cons, gt_iff_lt]
      omega, rfl⟩]
  show joinSep [c] (splitChar c s) = s
  exact joinSep_splitChar c s

/-- `allLoop` under a cached positive probe: a pure fold inserting, for
every enumerated entry whose derived logical key exists, that key's
decoded value. -/
theorem allLoop_cached {lk : Locker} (hsup : lk._supported = some true)
    (w : World) (entries : List (JStr × JStr)) (items : List (JStr × JSVal)) :
    ∃ res, lk.allLoop entries items w = (.ok res, lk, w) ∧
      ∀ s : JStr, jsLookup s res =
        (if (∃ p ∈ entries, allKey lk p.1 = s) ∧
            (w.getStore lk._driver).hasKey (lk._getPrefixedKey (.str s)) = true
         then some (storedOldVal lk w (.str s))
         else jsLookup s items) := by
  induction entries generalizing items with
  | nil =>
    refine ⟨items, rfl, fun s => ?_⟩
    simp
  | cons e rest ih =>
    obtain ⟨pk, sv⟩ := e
    cases hk : (w.getStore lk._driver).hasKey (lk._getPrefixedKey (.str (allKey lk pk))) with
    | true =>
      have hsome : ((w.getStore lk._driver).getItem
          (lk._getPrefixedKey (.str (allKey lk pk)))).isSome = true := hk
      obtain ⟨sv2, hsv⟩ := Option.isSome_iff_exists.mp hsome
      obtain ⟨res, heq, hprop⟩ :=
        ih (jsInsert (allKey lk pk) (storedOldVal lk w (.str (allKey lk pk))) items)
      refine ⟨res, ?_, fun s => ?_⟩
      · simp only [Locker.allLoop, Locker.has, exists_cached hsup, hk,
          getArgs_single_present hsup (allKey lk pk) w sv2 hsv]
        rw [show _unserialize (JSVal.str sv2) = storedOldVal lk w (.str (allKey lk pk))
          from by unfold storedOldVal; rw [hsv]]
        exact heq
      · rw [hprop s]
        by_cases hs : s = allKey lk pk
        · rw [hs]
          have hcons : ∃ p ∈ (pk, sv) :: rest, allKey lk p.1 = allKey lk pk :=
            ⟨(pk, sv), List.mem_cons_self _ _, rfl⟩
          by_cases hmem : ∃ p ∈ rest, allKey lk p.1 = allKey lk pk
          · rw [if_pos ⟨hmem, hk⟩, if_pos ⟨hcons, hk⟩]
          · rw [if_neg (fun hcon => hmem hcon.1), jsLookup_jsInsert_self,
              if_pos ⟨hcons, hk⟩]
        · have hs2 : ¬ allKey lk pk = s := fun h => hs h.symm
          rw [jsLookup_jsInsert_ne hs]
          have hiff : ((∃ p ∈ (pk, sv) :: rest, allKey lk p.1 = s) ∧
              (w.getStore lk._driver).hasKey (lk._getPrefixedKey (.str s)) = true) ↔
              ((∃ p ∈ rest, allKey lk p.1 = s) ∧
              (w.getStore lk._driver).hasKey (lk._getPrefixedKey (.str s)) = true) := by
            constructor
            · rintro ⟨⟨p, hp, hpk⟩, hH⟩
              rcases List.mem_cons.mp hp with h1 | h1
              · rw [h1] at hpk
                exact absurd hpk hs2
              · exact ⟨⟨p, h1, hpk⟩, hH⟩
            · rintro ⟨⟨p, hp, hpk⟩, hH⟩
              exact ⟨⟨p, List.mem_cons_of_mem _ hp, hpk⟩, hH⟩
          rw [if_congr hiff rfl rfl]
    | false =>
      obtain ⟨res, heq, hprop⟩ := ih items
      refine ⟨res, ?_, fun s => ?_⟩
      · simp only [Locker.allLoop, Locker.has, exists_cached hsup, hk]
        exact heq
      · rw [hprop s]
        by_cases hs : s = allKey lk pk
        · rw [hs]
          have hkfalse : ¬ (w.getStore lk._driver).hasKey
              (lk._getPrefixedKey (.str (allKey lk pk))) = true := by
            rw [hk]
            exact Bool.false_ne_true
          rw [if_neg (fun hcon => hkfalse hcon.2),
            if_neg (fun hcon => hkfalse hcon.2)]
        · have hs2 : ¬ allKey lk pk = s := fun h => hs h.symm
          have hiff : ((∃ p ∈ (pk, sv) :: rest, allKey lk p.1 = s) ∧
              (w.getStore lk._driver).hasKey (lk._getPrefixedKey (.str s)) = true) ↔
              ((∃ p ∈ rest, allKey lk p.1 = s) ∧
              (w.getStore lk._driver).hasKey (lk._getPrefixedKey (.str s)) = true) := by
            constructor
            · rintro ⟨⟨p, hp, hpk⟩, hH⟩
              rcases List.mem_cons.mp hp with h1 | h1
              · rw [h1] at hpk
                exact absurd hpk hs2
              · exact ⟨⟨p, h1, hpk⟩, hH⟩
            · rintro ⟨⟨p, hp, hpk⟩, hH⟩
              exact ⟨⟨p, List.mem_cons_of_mem _ hp, hpk⟩, hH⟩
          rw [if_congr hiff rfl rfl]

/-- C5: with a single-character separator not occurring in the non-empty
namespace and a cached positive probe, `all()` returns exactly the
current namespace's mapping — looking up any logical key `s` in the
result gives the decoded value stored under the physical key
`namespace ++ separator ++ s`, and `none` when that physical key is
absent (so entries of other namespaces are excluded even though every
backend key is enumerated) — and `count()` returns the number of entries
of `all()`. -/
theorem all_namespace_mapping (lk : Locker) (w : World) (c : Char)
    (hsup : lk._supported = some true) (hsep : lk._separator = [c])
    (hc : c ∉ lk._namespace) (hns : lk._namespace ≠ []) :
    ∃ items, lk.all w = (.ok items, lk, w) ∧
      (∀ s : JStr, jsLookup s items =
        match (w.getStore lk._driver).getItem (lk._namespace ++ c :: s) with
        | some sv => some (_unserialize (.str sv))
        | none => none) ∧
      lk.count w = (.ok items.length, lk, w) := by
  obtain ⟨res, heq, hprop⟩ := allLoop_cached hsup w (w.getStore lk._driver).items []
  have hall : lk.all w = (.ok res, lk, w) := heq
  refine ⟨res, hall, fun s => ?_, ?_⟩
  · rw [hprop s]
    cases hv : (w.getStore lk._driver).getItem (lk._namespace ++ c :: s) with
    | some sv =>
      have hpres : (w.getStore lk._driver).hasKey (lk._getPrefixedKey (.str s)) = true := by
        unfold Storage.hasKey
        rw [getPrefixedKey_str lk c s hsep hns, hv]
        rfl
      have hmem : ∃ p ∈ (w.getStore lk._driver).items, allKey lk p.1 = s := by
        refine ⟨(lk._namespace ++ c :: s, sv), jsLookup_mem hv, ?_⟩
        exact allKey_owned lk c s hsep hc
      rw [if_pos ⟨hmem, hpres⟩]
      rw [show storedOldVal lk w (.str s) = _unserialize (.str sv) from by
        unfold storedOldVal
        rw [getPrefixedKey_str lk c s hsep hns, hv]]
    | none =>
      have habs : (w.getStore lk._driver).hasKey (lk._getPrefixedKey (.str s)) = false := by
        unfold Storage.hasKey
        rw [getPrefixedKey_str lk c s hsep hns, hv]
        rfl
      rw [if_neg (fun hcon => by rw [hcon.2] at habs; exact absurd habs (by simp))]
      rfl
  · unfold Locker.count
    rw [hall]

theorem all_namespace_mapping_witness :
    ∃ items, lk0.all wB = (.ok items, lk0, wB) ∧
      (∀ s : JStr, jsLookup s items =
        match (wB.getStore lk0._driver).getItem (lk0._namespace ++ '.' :: s) with
        | some sv => some (_unserialize (.str sv))
        | none => none) ∧
      lk0.count wB = (.ok items.length, lk0, wB) :=
  all_namespace_mapping lk0 wB '.' rfl rfl (by decide) (by decide)

/-! ### C9 -/

theorem jsLookup_filter_ne {β : Type} (k pk : JStr) (l : List (JStr × β)) :
    jsLookup pk (l.filter (fun p => !(p.1 == k)))
      = if pk = k then none else jsLookup pk l := by
  induction l with
  | nil =>
    show (none : Option β) = if pk = k then none else none
    split <;> rfl
  | cons p rest ih =>
    obtain ⟨k2, v2⟩ := p
    by_cases hk2 : k2 = k
    · rw [show ((k2, v2) :: rest).filter (fun p => !(p.1 == k))
          = rest.filter (fun p => !(p.1 == k)) from by
            simp [List.filter_cons, hk2]]
      rw [ih]
      by_cases hpk : pk = k
      · simp [hpk]
      · rw [if_neg hpk, if_neg hpk, jsLookup,
          if_neg (show ¬ k2 = pk from fun h => hpk (by rw [← h, hk2]))]
    · rw [show ((k2, v2) :: rest).filter (fun p => !(p.1 == k))
          = (k2, v2) :: rest.filter (fun p => !(p.1 == k)) from by
            simp [List.filter_cons, hk2]]
      by_cases h2 : k2 = pk
      · have hpk : ¬ pk = k := fun h => hk2 (by rw [h2, h])
        rw [jsLookup, if_pos h2, if_neg hpk, jsLookup, if_pos h2]
      · rw [jsLookup, if_neg h2, ih]
        by_cases hpk : pk = k
        · simp [hpk]
        · rw [if_neg hpk, if_neg hpk, jsLookup, if_neg h2]

theorem getItem_removeItem (st : Storage) (k pk : JStr) :
    (st.removeItem k).getItem pk = if pk = k then none else st.getItem pk :=
  jsLookup_filter_ne k pk st.items

/-- `forgetMany` under a cached positive probe: precisely the listed
keys' physical entries are gone, every other entry of the backend is
untouched. -/
theorem forgetMany_cached {lk : Locker} (hsup : lk._supported = some true)
    (ks : List JStr) (w : World) :
    ∃ w1, lk.forgetMany (ks.map JSVal.str) w = (.ok (), lk, w1) ∧
      ∀ pk : JStr, (w1.getStore lk._driver).getItem pk =
        if pk ∈ ks.map (fun s => lk._getPrefixedKey (.str s)) then none
        else (w.getStore lk._driver).getItem pk := by
  induction ks generalizing w with
  | nil =>
    refine ⟨w, rfl, fun pk => ?_⟩
    simp
  | cons k rest ih =>
    cases hk : (w.getStore lk._driver).hasKey (lk._getPrefixedKey (.str k)) with
    | true =>
      obtain ⟨w1, heq, hprop⟩ := ih (lk._event ("locker.item.forgotten")
        (.forgotten (.str k))
        (w.setStore lk._driver
          ((w.getStore lk._driver).removeItem (lk._getPrefixedKey (.str k)))))
      have hst : ((lk._event ("locker.item.forgotten") (.forgotten (.str k))
          (w.setStore lk._driver
            ((w.getStore lk._driver).removeItem
              (lk._getPrefixedKey (.str k))))).getStore lk._driver)
          = (w.getStore lk._driver).removeItem (lk._getPrefixedKey (.str k)) := by
        rw [getStore_event, World.getStore_setStore_self]
      refine ⟨w1, ?_, fun pk => ?_⟩
      · simp only [List.map_cons, Locker.forgetMany, removeItem_cached hsup, hk,
          if_true]
        exact heq
      · rw [hprop pk, hst, getItem_removeItem]
        by_cases hmem : pk ∈ rest.map (fun s => lk._getPrefixedKey (.str s))
        · simp [hmem]
        · by_cases hpk : pk = lk._getPrefixedKey (.str k)
          · simp [hmem, hpk]
          · have hnc : ¬ pk ∈ (k :: rest).map (fun s => lk._getPrefixedKey (.str s)) := by
              intro hcon
              rcases List.mem_cons.mp hcon with h1 | h1
              · exact hpk h1
              · exact hmem h1
            rw [if_neg hmem, if_neg hpk, if_neg hnc]
    | false =>
      obtain ⟨w1, heq, hprop⟩ := ih w
      have habs : (w.getStore lk._driver).getItem (lk._getPrefixedKey (.str k))
          = none := by
        unfold Storage.hasKey at hk
        cases hq : (w.getStore lk._driver).getItem (lk._getPrefixedKey (.str k)) with
        | none => rfl
        | some sv =>
          rw [hq] at hk
          exact absurd hk (by simp)
      refine ⟨w1, ?_, fun pk => ?_⟩
      · simp only [List.map_cons, Locker.forgetMany, removeItem_cached hsup, hk,
          Bool.false_eq_true, if_false]
        exact heq
      · rw [hprop pk]
        by_cases hmem : pk ∈ rest.map (fun s => lk._getPrefixedKey (.str s))
        · simp [hmem]
        · by_cases hpk : pk = lk._getPrefixedKey (.str k)
          · have hc2 : pk ∈ (k :: rest).map (fun s => lk._getPrefixedKey (.str s)) := by
              rw [List.map_cons, hpk]
              exact List.mem_cons_self _ _
            rw [if_neg hmem, if_pos hc2, hpk, habs]
          · have hnc : ¬ pk ∈ (k :: rest).map (fun s => lk._getPrefixedKey (.str s)) := by
              intro hcon
              rcases List.mem_cons.mp hcon with h1 | h1
              · exact hpk h1
              · exact hmem h1
            rw [if_neg hmem, if_neg hnc]

/-- C9: with a single-character separator not occurring in the non-empty
namespace and a cached positive probe, `clean()` removes exactly the
current namespace's entries: every physical key of the form
`namespace ++ separator ++ s` is absent afterwards, and every other
physical key of the backend holds the same value as before. -/
theorem clean_only_namespace (lk : Locker) (w : World) (c : Char)
    (hsup : lk._supported = some true) (hsep : lk._separator = [c])
    (hc : c ∉ lk._namespace) (hns : lk._namespace ≠ []) :
    ∃ w1, lk.clean w = (.ok (), lk, w1) ∧
      (∀ pk : JStr, (¬ ∃ s, pk = lk._namespace ++ c :: s) →
        (w1.getStore lk._driver).getItem pk = (w.getStore lk._driver).getItem pk) ∧
      (∀ s : JStr, (w1.getStore lk._driver).getItem (lk._namespace ++ c :: s)
        = none) := by
  obtain ⟨items, hall, hmap, hcount⟩ := all_namespace_mapping lk w c hsup hsep hc hns
  obtain ⟨w1, heq, hprop⟩ := forgetMany_cached hsup (items.map Prod.fst) w
  have hks : items.map (fun p => JSVal.str p.1) = (items.map Prod.fst).map JSVal.str := by
    rw [List.map_map]
    rfl
  refine ⟨w1, ?_, fun pk hnot => ?_, fun s => ?_⟩
  · unfold Locker.clean
    rw [hall]
    show lk.forget (.arr (items.map (fun p => JSVal.str p.1))) w = (.ok (), lk, w1)
    rw [hks]
    simp only [Locker.forget, jsValueOf, heq]
  · rw [hprop pk]
    rw [if_neg (fun hmem => ?_)]
    obtain ⟨s, _, hpk⟩ := List.mem_map.mp hmem
    rw [getPrefixedKey_str lk c s hsep hns] at hpk
    exact hnot ⟨s, hpk.symm⟩
  · rw [hprop _]
    by_cases hp : (lk._namespace ++ c :: s)
        ∈ (items.map Prod.fst).map (fun s => lk._getPrefixedKey (.str s))
    · rw [if_pos hp]
    · rw [if_neg hp]
      cases hv : (w.getStore lk._driver).getItem (lk._namespace ++ c :: s) with
      | none => rfl
      | some sv =>
        exfalso
        apply hp
        have hlookup : jsLookup s items = some (_unserialize (.str sv)) := by
          rw [hmap s, hv]
        have hsin : s ∈ items.map Prod.fst :=
          List.mem_map_of_mem Prod.fst (jsLookup_mem hlookup)
        refine List.mem_map.mpr ⟨s, hsin, ?_⟩
        rw [getPrefixedKey_str lk c s hsep hns]

theorem clean_only_namespace_witness :
    ∃ w1, lk0.clean wB = (.ok (), lk0, w1) ∧
      (∀ pk : JStr, (¬ ∃ s, pk = lk0._namespace ++ '.' :: s) →
        (w1.getStore lk0._driver).getItem pk = (wB.getStore lk0._driver).getItem pk) ∧
      (∀ s : JStr, (w1.getStore lk0._driver).getItem (lk0._namespace ++ '.' :: s)
        = none) :=
  clean_only_namespace lk0 wB '.' rfl rfl (by decide) (by decide)
